import Mathlib

/-!
# Verification of the numerical solver core (GoTools / SISL extract)

Shallow embedding, over exact rational arithmetic, of:

* `Go::LUDecomp`, `Go::LUsolveSystem`, `Go::forwardSubstitution` and
  `Go::backwardSubstitution` (scalar and `std::vector<double>`-valued
  overloads) from `gotools_core/LUDecomp_implementation.h`;
* `Go::SolveCG::matrixProduct` and the interface of
  `Go::SolveCG::attachMatrix` from the `SolveCG` header;
* the blended cross-tangent evaluation of `Go::CrossTangentOffset`
  (declaration only in the sources; the body is modelled from the spec).

Matrices are embedded as total functions `Nat → Nat → ℚ`; only entries with
both indices below the size `n` are ever read or written by the algorithms,
mirroring the C++ code's indexed accesses.  `double` becomes `ℚ` (the spec's
"exact arithmetic" reading), `fabs` becomes `|·|`, and `throw` becomes the
`Except` monad with one constructor per distinct `runtime_error`.
-/

namespace Go

/-- A square matrix, accessed as `mat[i][j]`. -/
abbrev Mat := Nat → Nat → ℚ

/-- A vector, accessed as `x[i]`. -/
abbrev Vec := Nat → ℚ

/-- Write `v` into entry `(i, j)` of `m` (the effect of `mat[i][j] = v`). -/
def updEntry (m : Mat) (i j : Nat) (v : ℚ) : Mat :=
  fun a b => if a = i ∧ b = j then v else m a b

/-- Write `v` into slot `i` of a vector (the effect of `x[i] = v`). -/
def updVec (x : Vec) (i : Nat) (v : ℚ) : Vec :=
  fun a => if a = i then v else x a

/-- Swap slots `i` and `j` of a function (the effect of `std::swap(f[i], f[j])`). -/
def swapFn {α : Type} (f : Nat → α) (i j : Nat) : Nat → α :=
  fun a => if a = i then f j else if a = j then f i else f a

/-- The row-swap loop `for (k = 0; k < num_cols; ++k) swap(mat[r1][k], mat[r2][k])`. -/
def swapRows (m : Mat) (ncols r1 r2 : Nat) : Mat :=
  fun i j =>
    if j < ncols then
      if i = r1 then m r2 j else if i = r2 then m r1 j else m i j
    else m i j

/-- The two distinct `std::runtime_error`s thrown by `LUDecomp`. -/
inductive LUerror : Type
  | nullRow   -- "Unable to LU decompose matrix.  Null row detected."
  | singular  -- "Unable to LU decompose singular matrix."
deriving DecidableEq

/-- The in-place state of `LUDecomp`: the matrix, the `scaling` vector, the
`perm` array and the `parity` flag (all of which the C++ code mutates). -/
structure LUSt : Type where
  mat : Mat
  scal : Vec
  perm : Nat → Nat
  parity : Bool

/-- `rowMaxAbs m i ncols` is `scaling[i]` after the inner loop
`for (j = 0; j < num_cols; ++j) { temp = fabs(mat[i][j]); if (temp > scaling[i]) ... }`,
starting from `0`: the largest `|mat[i][j]|` over `j < ncols`. -/
def rowMaxAbs (m : Mat) (i : Nat) : Nat → ℚ
  | 0 => 0
  | j + 1 =>
    let prev := rowMaxAbs m i j
    let temp := |m i j|
    if temp > prev then temp else prev

/-- The scaling pass of `LUDecomp`, rows `0 … nrows-1`: each `scaling[i]`
becomes `1 / (max |entry| of row i)`, and the first row whose maximum is `0`
raises the null-row error. -/
def computeScaling (m : Mat) (ncols : Nat) : Nat → Except LUerror Vec
  | 0 => .ok (fun _ => 0)
  | i + 1 => do
    let s ← computeScaling m ncols i
    let mx := rowMaxAbs m i ncols
    if mx = 0 then throw .nullRow
    else .ok (updVec s i (1 / mx))

/-- Column `j`, first inner loop of Crout's algorithm
(`for (i = 0; i < j; ++i)`): row `i` of column `j` becomes
`mat[i][j] - Σ_{k ≤ i-1} mat[i][k]·mat[k][j]`, rows treated in increasing
order so that later rows read the already-updated earlier ones. -/
def upperPhase (j : Nat) : Nat → Mat → Mat
  | 0, m => m
  | i + 1, m =>
    let m' := upperPhase j i m
    updEntry m' i j (m' i j - ∑ k ∈ Finset.range i, m' i k * m' k j)

/-- Column `j`, second inner loop (`for (i = j; i < num_rows; ++i)`), running
over `cnt` rows starting at `j`: each row `i` of column `j` becomes
`mat[i][j] - Σ_{k ≤ j-1} mat[i][k]·mat[k][j]`, while the running pivot
search `(pivot_val, pivot_row)` — started at `(0, j)` — records the first row
maximizing `|sum * scaling[i]|` (strict `>` keeps the earliest maximum). -/
def elimPhase (scal : Vec) (j : Nat) : Nat → Mat → Mat × ℚ × Nat
  | 0, m => (m, 0, j)
  | cnt + 1, m =>
    let r := elimPhase scal j cnt m
    let i := j + cnt
    let sum := r.1 i j - ∑ k ∈ Finset.range j, r.1 i k * r.1 k j
    let m' := updEntry r.1 i j sum
    let temp := |sum * scal i|
    if temp > r.2.1 then (m', temp, i) else (m', r.2.1, r.2.2)

/-- The trailing division of column `j`
(`pivot_val = 1/mat[j][j]; for (i = j+1; i < num_rows; ++i) mat[i][j] *= pivot_val`). -/
def divideBelow (m : Mat) (nrows j : Nat) : Mat :=
  fun i c =>
    if c = j ∧ j < i ∧ i < nrows then m i c * (1 / m j j) else m i c

/-- The conditional row / scaling / perm swap of column `j`
(`if (pivot_row != j) { … swaps …; parity = !parity; }`), applied to the
matrix produced by the elimination phase. -/
def postSwap (n j : Nat) (st : LUSt) : LUSt :=
  let r := elimPhase st.scal j (n - j) (upperPhase j j st.mat)
  if r.2.2 ≠ j then
    { mat := swapRows r.1 n r.2.2 j
      scal := swapFn st.scal j r.2.2
      perm := swapFn st.perm j r.2.2
      parity := ! st.parity }
  else
    { st with mat := r.1 }

/-- The trailing `if (j < num_rows - 1) { … divide below pivot … }`. -/
def postDivide (n j : Nat) (st' : LUSt) : LUSt :=
  if j < n - 1 then { st' with mat := divideBelow st'.mat n j } else st'

/-- One iteration `j` of the outer loop of `LUDecomp`: upper phase, elimination
phase with pivot search, the exact-zero pivot check, the conditional row /
scaling / perm swap with parity toggle (`postSwap`), and the division below
the pivot (`postDivide`). -/
def columnStep (n j : Nat) (st : LUSt) : Except LUerror LUSt :=
  let r := elimPhase st.scal j (n - j) (upperPhase j j st.mat)
  if r.1 r.2.2 j = 0 then throw .singular
  else .ok (postDivide n j (postSwap n j st))

/-- The outer loop of `LUDecomp`, columns `0 … cols-1` in order. -/
def croutLoop (n : Nat) : Nat → LUSt → Except LUerror LUSt
  | 0, st => .ok st
  | j + 1, st => do
    let st' ← croutLoop n j st
    columnStep n j st'

/-- `Go::LUDecomp(mat, num_rows, perm, parity)`: `parity` starts `true`,
`perm` starts as the identity sequence, the scaling pass runs (raising the
null-row error at a zero row), then Crout's algorithm column by column. -/
def LUDecomp (mat : Mat) (n : Nat) : Except LUerror LUSt := do
  let s ← computeScaling mat n n
  croutLoop n n { mat := mat, scal := s, perm := fun k => k, parity := true }

/-- The permutation loop of `LUsolveSystem`
(`vec_old = copy of vec; for (i) swap(vec[i], vec_old[permutation[i]])`),
over the pair (vec, vec_old). -/
def permuteLoop (perm : Nat → Nat) : Nat → Vec × Vec → Vec × Vec
  | 0, vs => vs
  | i + 1, vs =>
    let vs' := permuteLoop perm i vs
    let a := vs'.1 i
    let b := vs'.2 (perm i)
    (updVec vs'.1 i b, updVec vs'.2 (perm i) a)

/-- `Go::forwardSubstitution(A, x, num_unknowns)` (scalar right-hand side):
`for (i = 1; …) for (j = 0; j < i; ++j) x[i] -= A[i][j]*x[j]`.
The recursion also performs the (empty-bodied, hence vacuous) iteration
`i = 0` that the C++ loop skips. -/
def forwardSubstitution (A : Mat) : Nat → Vec → Vec
  | 0, x => x
  | i + 1, x =>
    let x' := forwardSubstitution A i x
    updVec x' i (x' i - ∑ j ∈ Finset.range i, A i j * x' j)

/-- One row of the backward-substitution loop body:
`for (j = i+1; j < n; ++j) x[i] -= A[i][j]*x[j]; x[i] /= A[i][i]`. -/
def bwdRow (A : Mat) (n i : Nat) (x : Vec) : Vec :=
  updVec x i ((x i - ∑ j ∈ Finset.Ico (i + 1) n, A i j * x j) / A i i)

/-- The loop `for (i = num_unknowns - 2; i >= 0; --i)` of
`backwardSubstitution`, processing rows `i, i-1, …, 0`. -/
def bwdLoop (A : Mat) (n : Nat) : Nat → Vec → Vec
  | 0, x => bwdRow A n 0 x
  | i + 1, x => bwdLoop A n i (bwdRow A n (i + 1) x)

/-- `Go::backwardSubstitution(A, x, num_unknowns)` (scalar right-hand side):
`x[n-1] /= A[n-1][n-1]`, then rows `n-2 … 0` each subtract the tail and divide
by the diagonal. -/
def backwardSubstitution (A : Mat) (n : Nat) (x : Vec) : Vec :=
  let x1 := updVec x (n - 1) (x (n - 1) / A (n - 1) (n - 1))
  if 2 ≤ n then bwdLoop A n (n - 2) x1 else x1

/-- `Go::LUsolveSystem(A, num_unknowns, vec)`: decompose, permute the
right-hand side through `perm` (objects `vec`, `vec_old`), forward then
backward substitution.  Returns the final state of `A` (with `perm`,
`parity`) and of `vec`. -/
def LUsolveSystem (A : Mat) (n : Nat) (vec : Vec) :
    Except LUerror (LUSt × Vec) := do
  let st ← LUDecomp A n
  let v1 := (permuteLoop st.perm n (vec, vec)).1
  let v2 := forwardSubstitution st.mat n v1
  let v3 := backwardSubstitution st.mat n v2
  .ok (st, v3)

/-! ## Vector-valued right-hand sides

The `std::vector<double>*` overloads of the substitution routines: the
right-hand side is an array of `dim`-dimensional points, embedded as
`Nat → Nat → ℚ` (`x[i][dd]`).  Components `dd ≥ dim` are never touched. -/

/-- A vector-valued right-hand side, accessed as `x[i][dd]`. -/
abbrev VVec := Nat → Nat → ℚ

/-- Write into component `dd` of slot `i` (the effect of `x[i][dd] = v`). -/
def updVVec (x : VVec) (i dd : Nat) (v : ℚ) : VVec :=
  fun a b => if a = i ∧ b = dd then v else x a b

/-- The inner `for (dd = 0; dd < dim; ++dd)` update of slot `i`: component
`dd < dim` becomes `f dd`, the others stay. -/
def setComponents (x : VVec) (dim i : Nat) (f : Nat → ℚ) : VVec :=
  fun a b => if a = i ∧ b < dim then f b else x a b

/-- Vector-valued `Go::forwardSubstitution(A, x, num_unknowns)`:
`for (i = 1; …) for (j = 0; j < i; ++j) for (dd < dim) x[i][dd] -= A[i][j]*x[j][dd]`. -/
def forwardSubstitutionVec (A : Mat) (dim : Nat) : Nat → VVec → VVec
  | 0, x => x
  | i + 1, x =>
    let x' := forwardSubstitutionVec A dim i x
    setComponents x' dim i
      (fun dd => x' i dd - ∑ j ∈ Finset.range i, A i j * x' j dd)

/-- One row of the vector-valued backward-substitution loop body. -/
def bwdRowVec (A : Mat) (dim n i : Nat) (x : VVec) : VVec :=
  setComponents x dim i
    (fun dd => (x i dd - ∑ j ∈ Finset.Ico (i + 1) n, A i j * x j dd) / A i i)

/-- The loop `for (i = num_unknowns - 2; i >= 0; --i)` of the vector-valued
`backwardSubstitution`. -/
def bwdLoopVec (A : Mat) (dim n : Nat) : Nat → VVec → VVec
  | 0, x => bwdRowVec A dim n 0 x
  | i + 1, x => bwdLoopVec A dim n i (bwdRowVec A dim n (i + 1) x)

/-- Vector-valued `Go::backwardSubstitution(A, x, num_unknowns)`:
`for (dd < dim) x[n-1][dd] /= A[n-1][n-1]`, then rows `n-2 … 0`. -/
def backwardSubstitutionVec (A : Mat) (dim n : Nat) (x : VVec) : VVec :=
  let x1 := setComponents x dim (n - 1)
    (fun dd => x (n - 1) dd / A (n - 1) (n - 1))
  if 2 ≤ n then bwdLoopVec A dim n (n - 2) x1 else x1

end Go

namespace Go

/-! ## `SolveCG`: compressed sparse rows -/

/-- The sparse-matrix fields of `Go::SolveCG` that `matrixProduct` reads:
`A_` (nonzero values), `irow_` (first-nonzero indexes of the `nn_` rows, of
length `nn_ + 1`), `jcol_` (column index of each nonzero) and `nn_`, plus
`np_` (number of nonzeros). -/
structure SolveCG : Type where
  A_ : List ℚ
  irow_ : List ℕ
  jcol_ : List ℕ
  nn_ : ℕ
  np_ : ℕ
deriving DecidableEq, Repr

/-- `s.A_[ki]` with out-of-range reads returning `0` (never exercised on a
well-formed structure). -/
def SolveCG.aVal (s : SolveCG) (ki : ℕ) : ℚ := s.A_.getD ki 0

/-- `s.irow_[k]`. -/
def SolveCG.irowVal (s : SolveCG) (k : ℕ) : ℕ := s.irow_.getD k 0

/-- `s.jcol_[ki]`. -/
def SolveCG.jcolVal (s : SolveCG) (ki : ℕ) : ℕ := s.jcol_.getD ki 0

/-- One row of `SolveCG::matrixProduct`: the inner loop
`for (ki = irow_[kj]; ki < irow_[kj+1]; ki++) sy[kj] += A_[ki]*sx[jcol_[ki]]`
starting from `sy[kj] = 0.0`. -/
def SolveCG.rowProduct (s : SolveCG) (sx : Vec) (kj : ℕ) : ℚ :=
  ∑ ki ∈ Finset.Ico (s.irowVal kj) (s.irowVal (kj + 1)), s.aVal ki * sx (s.jcolVal ki)

/-- `SolveCG::matrixProduct(sx, sy)`: `sy[kj] = rowProduct kj` for every row
`kj < nn_`; other slots of `sy` are not written (they keep the given initial
content `sy0`). -/
def SolveCG.matrixProduct (s : SolveCG) (sx : Vec) (sy0 : Vec) : Vec :=
  fun kj => if kj < s.nn_ then s.rowProduct sx kj else sy0 kj

/-- Modelled from the spec: the body of `SolveCG::attachMatrix(gmat, nn)` is
not in the sources (only its declaration and documentation are).  Per the
header, `gmat` is the full system matrix, "Size is nn*nn, stored columnwise",
and the method "represent[s] the matrix as a sparse matrix": row by row, the
nonzero entries `gmat[kj + nn*ki]` (entry of row `kj`, column `ki`, columnwise
storage) are collected into `A_`/`jcol_`, with `irow_` recording where each
row starts and `np_` the total nonzero count.  `attachRowEntries` is the
nonzero (value, column) list of one row `kj` of the dense input. -/
def attachRowEntries (gmat : List ℚ) (nn kj : ℕ) : List (ℚ × ℕ) :=
  ((List.range nn).map (fun ki => (gmat.getD (kj + nn * ki) 0, ki))).filter
    (fun p => p.1 ≠ 0)

/-- The per-row nonzero (value, column) lists of the dense input, rows `0 … nn-1`. -/
def attachRows (gmat : List ℚ) (nn : ℕ) : List (List (ℚ × ℕ)) :=
  (List.range nn).map (attachRowEntries gmat nn)

/-- Modelled from the spec (see `attachRowEntries`): `SolveCG::attachMatrix(gmat, nn)`,
assembling the sparse structure from the dense columnwise input. -/
def attachMatrix (gmat : List ℚ) (nn : ℕ) : SolveCG :=
  let rows := attachRows gmat nn
  let allEntries := rows.flatten
  { A_ := allEntries.map Prod.fst
    jcol_ := allEntries.map Prod.snd
    irow_ := (List.range (nn + 1)).map
      (fun k => ((rows.take k).map List.length).sum)
    nn_ := nn
    np_ := allEntries.length }

/-- The attach operation as the claim words it: directly receiving the triple
of nonzero values, per-nonzero column indices and row starts, plus the size
(for comparison with `attachMatrix`, whose input is the dense matrix). -/
def attachSparse (values : List ℚ) (colIndices : List ℕ) (rowStarts : List ℕ)
    (n : ℕ) : SolveCG :=
  { A_ := values
    jcol_ := colIndices
    irow_ := rowStarts
    nn_ := n
    np_ := values.length }

end Go

namespace Go

/-! ## `CrossTangentOffset`: blended cross-tangent -/

/-- A spline curve evaluation, embedded as a map from the parameter to the
point's coordinate list. -/
abbrev Curve := ℚ → List ℚ

/-- Pointwise sum of two coordinate lists. -/
def ptAdd (p q : List ℚ) : List ℚ := List.zipWith (· + ·) p q

/-- Scaling of a coordinate list by a scalar. -/
def ptSmul (c : ℚ) (p : List ℚ) : List ℚ := p.map (fun x => c * x)

/-- Modelled from the spec: the body of `CrossTangentOffset::evalcrtan(t)` is
not in the sources (the class header only declares it).  Per the constructor
documentation, "the two cross-tangent curves are evaluated at the specified
parameter, multiplied by their respective blending functions and added
together": `blend1(t)·tangcv1(t) + blend2(t)·tangcv2(t)`, the blending
functions being dimension-1 curves (their value is the single coordinate). -/
def evalcrtan (tangcv1 tangcv2 : Curve) (blend1 blend2 : ℚ → ℚ) (t : ℚ) :
    List ℚ :=
  ptAdd (ptSmul (blend1 t) (tangcv1 t)) (ptSmul (blend2 t) (tangcv2 t))

end Go

/-! ## Basic read lemmas for the state updates -/

namespace Go

@[simp] lemma updVec_same (x : Vec) (i : Nat) (v : ℚ) : updVec x i v i = v := by
  simp [updVec]

lemma updVec_other (x : Vec) (i a : Nat) (v : ℚ) (h : a ≠ i) :
    updVec x i v a = x a := by
  simp [updVec, h]

lemma updEntry_same (m : Mat) (i j : Nat) (v : ℚ) : updEntry m i j v i j = v := by
  simp [updEntry]

lemma updEntry_other (m : Mat) (i j a b : Nat) (v : ℚ) (h : ¬(a = i ∧ b = j)) :
    updEntry m i j v a b = m a b := by
  simp only [updEntry, if_neg h]

/-! ## C5: the CSR matrix-vector product -/

/-- The (value, column-index) pairs of row `k`'s slots, in slot order. -/
def SolveCG.rowPairs (s : SolveCG) (k : ℕ) : List (ℚ × ℕ) :=
  (List.range' (s.irowVal k) (s.irowVal (k + 1) - s.irowVal k)).map
    (fun ki => (s.aVal ki, s.jcolVal ki))

lemma sum_map_range' (f : ℕ → ℚ) :
    ∀ (len a : ℕ), ((List.range' a len).map f).sum = ∑ i ∈ Finset.Ico a (a + len), f i := by
  intro len
  induction len with
  | zero => intro a; simp
  | succ len ih =>
    intro a
    rw [List.range'_succ]
    have hab : a < a + (len + 1) := by omega
    rw [Finset.sum_eq_sum_Ico_succ_bot hab]
    have : a + (len + 1) = (a + 1) + len := by omega
    rw [this]
    simp only [List.map_cons, List.sum_cons]
    rw [ih (a + 1)]

lemma sum_Ico_eq_sum_map_range' (f : ℕ → ℚ) (a b : ℕ) :
    ∑ i ∈ Finset.Ico a b, f i = ((List.range' a (b - a)).map f).sum := by
  rw [sum_map_range' f (b - a) a]
  rcases Nat.le_total a b with h | h
  · rw [Nat.add_sub_cancel' h]
  · rw [Nat.sub_eq_zero_of_le h]
    rw [Finset.Ico_eq_empty (by omega), Finset.Ico_eq_empty (by omega)]

/-- A row's product is the sum of `value · sx[col]` over its (value, col) pairs. -/
lemma SolveCG.rowProduct_eq_pairs (s : SolveCG) (sx : Vec) (k : ℕ) :
    s.rowProduct sx k = ((s.rowPairs k).map (fun p => p.1 * sx p.2)).sum := by
  rw [SolveCG.rowProduct, SolveCG.rowPairs, List.map_map,
    sum_Ico_eq_sum_map_range']
  rfl

end Go

/-- C5: for every attached sparse structure and input vector `sx`,
`SolveCG::matrixProduct` computes, for every row `k < nn_`,
`sy[k] = Σ_{ki ∈ [irow_[k], irow_[k+1])} A_[ki] · sx[jcol_[ki]]`, and this
value is unchanged if the (value, column) slots within each row are listed in
a different order (here: row `k` of `s'` is a permutation of row `k` of `s`). -/
theorem C5_matrixProduct_csr (s s' : Go.SolveCG) (sx sy0 sy0' : Go.Vec) (k : ℕ)
    (hk : k < s.nn_) (hk' : k < s'.nn_)
    (hperm : (s.rowPairs k).Perm (s'.rowPairs k)) :
    (s.matrixProduct sx sy0 k
        = ∑ ki ∈ Finset.Ico (s.irowVal k) (s.irowVal (k + 1)),
            s.aVal ki * sx (s.jcolVal ki))
    ∧ s.matrixProduct sx sy0 k = s'.matrixProduct sx sy0' k := by
  constructor
  · rw [Go.SolveCG.matrixProduct, if_pos hk]
    rfl
  · rw [Go.SolveCG.matrixProduct, Go.SolveCG.matrixProduct, if_pos hk, if_pos hk',
      Go.SolveCG.rowProduct_eq_pairs, Go.SolveCG.rowProduct_eq_pairs]
    exact List.Perm.sum_eq (hperm.map _)

/-- Witness for C5 at a concrete 1-row structure: row `[(2,5),(3,7)]` against
its reversal `[(3,7),(2,5)]`. -/
theorem C5_matrixProduct_csr_witness :
    Go.SolveCG.matrixProduct ⟨[2, 3], [0, 2], [5, 7], 1, 2⟩ (fun i => (i : ℚ))
        (fun _ => 0) 0
      = Go.SolveCG.matrixProduct ⟨[3, 2], [0, 2], [7, 5], 1, 2⟩ (fun i => (i : ℚ))
        (fun _ => 0) 0 :=
  (C5_matrixProduct_csr ⟨[2, 3], [0, 2], [5, 7], 1, 2⟩ ⟨[3, 2], [0, 2], [7, 5], 1, 2⟩
    (fun i => (i : ℚ)) (fun _ => 0) (fun _ => 0) 0
    (by decide) (by decide) (by decide)).2

/-! ## C7: the blended cross-tangent -/

namespace Go

/-- Scaling by `1` is the identity on coordinate lists. -/
lemma ptSmul_one (p : List ℚ) : ptSmul 1 p = p := by
  simp [ptSmul]

/-- Adding a coordinate list to itself doubles it. -/
lemma ptAdd_self (p : List ℚ) : ptAdd p p = ptSmul 2 p := by
  induction p with
  | nil => rfl
  | cons a l ih =>
    simp only [ptAdd, ptSmul, List.zipWith_cons_cons, List.map_cons] at *
    rw [ih, two_mul]

end Go

/-- C7: `CrossTangentOffset`'s blended cross-tangent direction at `t` is
`blend1(t)·tangcv1(t) + blend2(t)·tangcv2(t)`, and when both blending
functions are identically `1` and both cross-tangent curves are the same
curve, it is exactly twice that curve's value at `t`. -/
theorem C7_evalcrtan_blend (tangcv1 tangcv2 : Go.Curve) (blend1 blend2 : ℚ → ℚ)
    (t : ℚ) :
    Go.evalcrtan tangcv1 tangcv2 blend1 blend2 t
      = Go.ptAdd (Go.ptSmul (blend1 t) (tangcv1 t)) (Go.ptSmul (blend2 t) (tangcv2 t))
    ∧ ((∀ s, blend1 s = 1) → (∀ s, blend2 s = 1) → tangcv1 = tangcv2 →
        Go.evalcrtan tangcv1 tangcv2 blend1 blend2 t = Go.ptSmul 2 (tangcv1 t)) := by
  refine ⟨rfl, fun h1 h2 hcv => ?_⟩
  rw [Go.evalcrtan, h1 t, h2 t, ← hcv, Go.ptSmul_one, Go.ptAdd_self]

/-- Witness for C7: a concrete planar curve with unit blends at `t = 3`. -/
theorem C7_evalcrtan_blend_witness :
    Go.evalcrtan (fun t => [t, 2 * t]) (fun t => [t, 2 * t])
        (fun _ => 1) (fun _ => 1) 3
      = Go.ptSmul 2 [(3 : ℚ), 2 * 3] :=
  (C7_evalcrtan_blend (fun t => [t, 2 * t]) (fun t => [t, 2 * t])
    (fun _ => 1) (fun _ => 1) 3).2 (fun _ => rfl) (fun _ => rfl) rfl

/-! ## C6: what `attachMatrix` receives and what it builds -/

namespace Go

/-- Total length of a list of lists. -/
def sumLen {α : Type} (l : List (List α)) : ℕ := (l.map List.length).sum

lemma sumLen_append {α : Type} (l1 l2 : List (List α)) :
    sumLen (l1 ++ l2) = sumLen l1 + sumLen l2 := by
  simp [sumLen]

lemma sumLen_take_le {α : Type} (l : List (List α)) (k : ℕ) :
    sumLen (l.take k) ≤ sumLen l := by
  conv_rhs => rw [← List.take_append_drop k l]
  rw [sumLen_append]
  exact Nat.le_add_right _ _

lemma sumLen_take_succ {α : Type} (l : List (List α)) (k : ℕ) (h : k < l.length) :
    sumLen (l.take (k + 1)) = sumLen (l.take k) + (l.getD k []).length := by
  have hg : l.getD k [] = l[k] := l.getD_eq_getElem [] h
  rw [List.take_succ, sumLen_append, List.getElem?_eq_getElem h, hg]
  simp [sumLen]

lemma flatten_getD {α : Type} (d : α) :
    ∀ (rows : List (List α)) (k i : ℕ), k < rows.length →
      i < (rows.getD k []).length →
      rows.flatten.getD (sumLen (rows.take k) + i) d = (rows.getD k []).getD i d := by
  intro rows
  induction rows with
  | nil => intro k i hk _; exact absurd hk (by simp)
  | cons r rest ih =>
    intro k i hk hi
    cases k with
    | zero =>
      simp only [List.getD_cons_zero] at hi ⊢
      simp only [List.take_zero, sumLen, List.map_nil, List.sum_nil, Nat.zero_add,
        List.flatten_cons]
      exact List.getD_append _ _ _ _ hi
    | succ k =>
      simp only [List.getD_cons_succ] at hi ⊢
      have hk' : k < rest.length := by simpa using hk
      have htake : (r :: rest).take (k + 1) = r :: rest.take k := rfl
      rw [htake]
      have hsum : sumLen (r :: rest.take k)
          = r.length + sumLen (rest.take k) := by simp [sumLen]
      rw [hsum, List.flatten_cons]
      have harith : r.length + sumLen (rest.take k) + i
          = r.length + (sumLen (rest.take k) + i) := by omega
      rw [harith, List.getD_append_right _ _ _ _ (Nat.le_add_right _ _),
        Nat.add_sub_cancel_left]
      exact ih k i hk' hi

lemma attachRows_length (gmat : List ℚ) (nn : ℕ) :
    (attachRows gmat nn).length = nn := by
  simp [attachRows]

lemma attachRows_getD (gmat : List ℚ) (nn k : ℕ) (hk : k < nn) :
    (attachRows gmat nn).getD k [] = attachRowEntries gmat nn k := by
  rw [attachRows, List.getD_eq_getElem _ [] (by simpa using hk)]
  rw [List.getElem_map, List.getElem_range]

lemma attach_irowVal (gmat : List ℚ) (nn k : ℕ) (hk : k ≤ nn) :
    (attachMatrix gmat nn).irowVal k = sumLen ((attachRows gmat nn).take k) := by
  rw [attachMatrix, SolveCG.irowVal]
  simp only
  rw [List.getD_eq_getElem _ 0 (by simp; omega)]
  rw [List.getElem_map, List.getElem_range]
  rfl

/-- The (value, column) pairs of row `k` of the attached structure are exactly
the nonzero entries of row `k` of the dense input, in column order. -/
lemma attach_rowPairs (gmat : List ℚ) (nn k : ℕ) (hk : k < nn) :
    (attachMatrix gmat nn).rowPairs k = attachRowEntries gmat nn k := by
  have hrows : (attachRows gmat nn).length = nn := attachRows_length gmat nn
  have hk' : k < (attachRows gmat nn).length := by rw [hrows]; exact hk
  have hS : (attachMatrix gmat nn).irowVal k
      = sumLen ((attachRows gmat nn).take k) := attach_irowVal gmat nn k hk.le
  have hS1 : (attachMatrix gmat nn).irowVal (k + 1)
      = sumLen ((attachRows gmat nn).take k)
        + ((attachRows gmat nn).getD k []).length := by
    rw [attach_irowVal gmat nn (k + 1) hk, sumLen_take_succ _ _ hk']
  have hlenflat : (attachRows gmat nn).flatten.length = sumLen (attachRows gmat nn) := by
    simp [sumLen]
  have hbound : ∀ i, i < ((attachRows gmat nn).getD k []).length →
      sumLen ((attachRows gmat nn).take k) + i < (attachRows gmat nn).flatten.length := by
    intro i hi
    rw [hlenflat]
    have h1 : sumLen ((attachRows gmat nn).take k) + i
        < sumLen ((attachRows gmat nn).take (k + 1)) := by
      rw [sumLen_take_succ _ _ hk']; omega
    exact lt_of_lt_of_le h1 (sumLen_take_le _ _)
  rw [SolveCG.rowPairs, hS, hS1, Nat.add_sub_cancel_left, ← attachRows_getD gmat nn k hk]
  apply List.ext_getElem
  · simp
  · intro i h1 h2
    have hi : i < ((attachRows gmat nn).getD k []).length := by simpa using h2
    have hgetr : ((List.range' (sumLen ((attachRows gmat nn).take k))
        (((attachRows gmat nn).getD k []).length)).map
          (fun ki => ((attachMatrix gmat nn).aVal ki, (attachMatrix gmat nn).jcolVal ki)))[i]
        = ((attachMatrix gmat nn).aVal (sumLen ((attachRows gmat nn).take k) + i),
           (attachMatrix gmat nn).jcolVal (sumLen ((attachRows gmat nn).take k) + i)) := by
      rw [List.getElem_map, List.getElem_range'_1]
    rw [hgetr]
    have hb := hbound i hi
    have hflat : (attachRows gmat nn).flatten.getD
        (sumLen ((attachRows gmat nn).take k) + i) ((0 : ℚ), (0 : ℕ))
        = ((attachRows gmat nn).getD k []).getD i ((0 : ℚ), (0 : ℕ)) :=
      flatten_getD _ (attachRows gmat nn) k i hk' hi
    have hA : (attachMatrix gmat nn).aVal (sumLen ((attachRows gmat nn).take k) + i)
        = (((attachRows gmat nn).getD k [])[i]).1 := by
      rw [SolveCG.aVal, attachMatrix]
      simp only
      rw [List.getD_eq_getElem _ 0 (by rw [List.length_map]; exact hb), List.getElem_map]
      rw [List.getD_eq_getElem _ _ hb, List.getD_eq_getElem _ _ hi] at hflat
      rw [hflat]
    have hJ : (attachMatrix gmat nn).jcolVal (sumLen ((attachRows gmat nn).take k) + i)
        = (((attachRows gmat nn).getD k [])[i]).2 := by
      rw [SolveCG.jcolVal, attachMatrix]
      simp only
      rw [List.getD_eq_getElem _ 0 (by rw [List.length_map]; exact hb), List.getElem_map]
      rw [List.getD_eq_getElem _ _ hb, List.getD_eq_getElem _ _ hi] at hflat
      rw [hflat]
    rw [hA, hJ]

/-- Dropping the zero entries of a row does not change its product sum. -/
lemma filter_nonzero_sum (sx : Vec) (l : List (ℚ × ℕ)) :
    ((l.filter (fun p => p.1 ≠ 0)).map (fun p => p.1 * sx p.2)).sum
      = (l.map (fun p => p.1 * sx p.2)).sum := by
  induction l with
  | nil => rfl
  | cons a l ih =>
    by_cases ha : a.1 = 0
    · rw [List.filter_cons, if_neg (by simp [ha]), List.map_cons, List.sum_cons, ih,
        ha, zero_mul, zero_add]
    · rw [List.filter_cons, if_pos (by simp [ha]), List.map_cons, List.map_cons,
        List.sum_cons, List.sum_cons, ih]

/-- The CSR product of the attached structure reproduces the dense columnwise
matrix-vector product, row by row. -/
lemma attach_rowProduct (gmat : List ℚ) (nn : ℕ) (sx : Vec) (k : ℕ) (hk : k < nn) :
    (attachMatrix gmat nn).rowProduct sx k
      = ∑ c ∈ Finset.range nn, gmat.getD (k + nn * c) 0 * sx c := by
  rw [SolveCG.rowProduct_eq_pairs, attach_rowPairs gmat nn k hk, attachRowEntries,
    filter_nonzero_sum, List.map_map, Finset.range_eq_Ico,
    sum_Ico_eq_sum_map_range', Nat.sub_zero, ← List.range_eq_range']
  rfl

end Go

/-- C6 counterexample: the attach operation of the sparse CG solver does not
receive the matrix in sparse form.  At the concrete 2×2 identity matrix, the
input to `attachMatrix` is the full dense array `[1, 0, 0, 1]` of `nn*nn = 4`
entries (zeros included, stored columnwise), not the nonzero-value sequence:
the attached structure's value array `A_ = [1, 1]` (with `np_ = 2` nonzeros,
row starts `[0, 1, 2]` and column indices `[0, 1]`) is computed by the attach
operation itself and differs from its input. -/
theorem C6_attach_counterexample :
    Go.attachMatrix [1, 0, 0, 1] 2 = Go.attachSparse [1, 1] [0, 1] [0, 1, 2] 2
    ∧ ¬ ([(1 : ℚ), 0, 0, 1] = (Go.attachMatrix [1, 0, 0, 1] 2).A_)
    ∧ [(1 : ℚ), 0, 0, 1].length = 2 * 2
    ∧ (Go.attachMatrix [1, 0, 0, 1] 2).np_ = 2 := by
  refine ⟨?_, by decide, rfl, by decide⟩
  decide

/-- C6 (amended): `SolveCG::attachMatrix` receives the coefficient matrix in
dense form — the flat array of `nn*nn` entries stored columnwise — together
with the system size `nn`, and itself builds the sparse representation:
`nn_ = nn`, a row-start array `irow_` of length `nn + 1`, parallel value /
column-index arrays of length `np_`, whose CSR matrix-vector product
reproduces the dense product of the input matrix on every row `k < nn`. -/
theorem C6_attach_dense (gmat : List ℚ) (nn : ℕ) (sx sy0 : Go.Vec) (k : ℕ)
    (hk : k < nn) (hlen : gmat.length = nn * nn) :
    (Go.attachMatrix gmat nn).nn_ = nn
    ∧ (Go.attachMatrix gmat nn).irow_.length = nn + 1
    ∧ (Go.attachMatrix gmat nn).A_.length = (Go.attachMatrix gmat nn).np_
    ∧ (Go.attachMatrix gmat nn).jcol_.length = (Go.attachMatrix gmat nn).np_
    ∧ (Go.attachMatrix gmat nn).matrixProduct sx sy0 k
        = ∑ c ∈ Finset.range nn, gmat.getD (k + nn * c) 0 * sx c := by
  refine ⟨rfl, by simp [Go.attachMatrix],
    by rw [Go.attachMatrix]; simp only [List.length_map],
    by rw [Go.attachMatrix]; simp only [List.length_map], ?_⟩
  rw [Go.SolveCG.matrixProduct, if_pos (show k < (Go.attachMatrix gmat nn).nn_ from hk)]
  exact Go.attach_rowProduct gmat nn sx k hk

/-- Witness for C6 (amended) at the dense 2×2 identity. -/
theorem C6_attach_dense_witness :
    (Go.attachMatrix [1, 0, 0, 1] 2).matrixProduct (fun i => (i : ℚ) + 1)
        (fun _ => 0) 0
      = ∑ c ∈ Finset.range 2, ([(1 : ℚ), 0, 0, 1].getD (0 + 2 * c) 0) * ((c : ℚ) + 1) :=
  (C6_attach_dense [1, 0, 0, 1] 2 (fun i => (i : ℚ) + 1) (fun _ => 0) 0
    (by decide) (by decide)).2.2.2.2

/-! ## C8: vector-valued right-hand sides are componentwise the scalar routines -/

namespace Go

lemma proj_forwardSubstitutionVec (A : Mat) (dim dd : ℕ) (hdd : dd < dim) :
    ∀ (cnt : ℕ) (x : VVec) (r : ℕ),
      forwardSubstitutionVec A dim cnt x r dd
        = forwardSubstitution A cnt (fun a => x a dd) r := by
  intro cnt
  induction cnt with
  | zero => intro x r; rfl
  | succ cnt ih =>
    intro x r
    simp only [forwardSubstitutionVec, forwardSubstitution, setComponents, updVec]
    by_cases hr : r = cnt
    · rw [if_pos ⟨hr, hdd⟩, if_pos hr]
      congr 1
      · exact ih x cnt
      · exact Finset.sum_congr rfl fun j _ => by rw [ih x j]
    · rw [if_neg (by tauto), if_neg hr]
      exact ih x r

lemma proj_bwdRowVec (A : Mat) (dim n i dd : ℕ) (hdd : dd < dim) (x : VVec) :
    (fun r => bwdRowVec A dim n i x r dd) = bwdRow A n i (fun a => x a dd) := by
  funext r
  simp only [bwdRowVec, bwdRow, setComponents, updVec]
  by_cases hr : r = i
  · rw [if_pos ⟨hr, hdd⟩, if_pos hr]
  · rw [if_neg (by tauto), if_neg hr]

lemma proj_bwdLoopVec (A : Mat) (dim n dd : ℕ) (hdd : dd < dim) :
    ∀ (cnt : ℕ) (x : VVec) (r : ℕ),
      bwdLoopVec A dim n cnt x r dd
        = bwdLoop A n cnt (fun a => x a dd) r := by
  intro cnt
  induction cnt with
  | zero =>
    intro x r
    simp only [bwdLoopVec, bwdLoop]
    exact congrFun (proj_bwdRowVec A dim n 0 dd hdd x) r
  | succ cnt ih =>
    intro x r
    simp only [bwdLoopVec, bwdLoop]
    rw [ih (bwdRowVec A dim n (cnt + 1) x) r,
      proj_bwdRowVec A dim n (cnt + 1) dd hdd x]

lemma proj_backwardSubstitutionVec (A : Mat) (dim n dd : ℕ) (hdd : dd < dim)
    (x : VVec) (r : ℕ) :
    backwardSubstitutionVec A dim n x r dd
      = backwardSubstitution A n (fun a => x a dd) r := by
  have hx1 : (fun a => setComponents x dim (n - 1)
      (fun dd => x (n - 1) dd / A (n - 1) (n - 1)) a dd)
      = updVec (fun a => x a dd) (n - 1) (x (n - 1) dd / A (n - 1) (n - 1)) := by
    funext a
    simp only [setComponents, updVec]
    by_cases ha : a = n - 1
    · rw [if_pos ⟨ha, hdd⟩, if_pos ha]
    · rw [if_neg (by tauto), if_neg ha]
  simp only [backwardSubstitutionVec, backwardSubstitution]
  by_cases hn2 : 2 ≤ n
  · rw [if_pos hn2, if_pos hn2, proj_bwdLoopVec A dim n dd hdd (n - 2) _ r, hx1]
  · rw [if_neg hn2, if_neg hn2]
    exact congrFun hx1 r

end Go

/-- C8: the vector-valued overloads of `forwardSubstitution` and
`backwardSubstitution` are componentwise equivalent to the scalar overloads:
for every matrix `A`, `n ≥ 1` unknowns and component `dd < dim`, running the
vector overload and projecting on component `dd` gives exactly the scalar
overload run on the projection of the input. -/
theorem C8_vector_overloads_componentwise (A : Go.Mat) (dim n dd : ℕ)
    (x : Go.VVec) (hn : 1 ≤ n) (hdd : dd < dim) :
    (∀ r, Go.forwardSubstitutionVec A dim n x r dd
        = Go.forwardSubstitution A n (fun a => x a dd) r)
    ∧ (∀ r, Go.backwardSubstitutionVec A dim n x r dd
        = Go.backwardSubstitution A n (fun a => x a dd) r) :=
  ⟨fun r => Go.proj_forwardSubstitutionVec A dim dd hdd n x r,
   fun r => Go.proj_backwardSubstitutionVec A dim n dd hdd x r⟩

/-- Witness for C8 at a concrete 2×2 system with 2-dimensional right-hand side. -/
theorem C8_vector_overloads_componentwise_witness :
    Go.backwardSubstitutionVec (fun i j => (i : ℚ) + (j : ℚ) + 1) 2 2
        (fun i d => (i : ℚ) * 2 + (d : ℚ)) 0 1
      = Go.backwardSubstitution (fun i j => (i : ℚ) + (j : ℚ) + 1) 2
        (fun a => (a : ℚ) * 2 + (1 : ℚ)) 0 := by
  have h := (C8_vector_overloads_componentwise (fun i j => (i : ℚ) + (j : ℚ) + 1) 2 2 1
    (fun i d => (i : ℚ) * 2 + (d : ℚ)) (by decide) (by decide)).2 0
  simpa using h

/-! ## The LU decomposition: frame and value lemmas for the column phases -/

namespace Go

lemma swapFn_left {α : Type} (f : Nat → α) (i j : Nat) : swapFn f i j i = f j := by
  simp [swapFn]

lemma swapFn_right {α : Type} (f : Nat → α) (i j : Nat) : swapFn f i j j = f i := by
  by_cases h : j = i
  · subst h; simp [swapFn]
  · simp [swapFn, h]

lemma swapFn_other {α : Type} (f : Nat → α) (i j a : Nat) (hi : a ≠ i) (hj : a ≠ j) :
    swapFn f i j a = f a := by
  simp [swapFn, hi, hj]

lemma swapRows_fst (m : Mat) (ncols r1 r2 b : Nat) (hb : b < ncols) :
    swapRows m ncols r1 r2 r1 b = m r2 b := by
  simp [swapRows, hb]

lemma swapRows_snd (m : Mat) (ncols r1 r2 b : Nat) (hb : b < ncols) :
    swapRows m ncols r1 r2 r2 b = m r1 b := by
  by_cases h : r2 = r1
  · subst h; simp [swapRows, hb]
  · simp [swapRows, hb, h]

lemma swapRows_other (m : Mat) (ncols r1 r2 a b : Nat) (h1 : a ≠ r1) (h2 : a ≠ r2) :
    swapRows m ncols r1 r2 a b = m a b := by
  by_cases hb : b < ncols <;> simp [swapRows, h1, h2, hb]

lemma swapRows_wide (m : Mat) (ncols r1 r2 a b : Nat) (hb : ncols ≤ b) :
    swapRows m ncols r1 r2 a b = m a b := by
  simp [swapRows, Nat.not_lt.mpr hb]

/-- Entries outside the already-processed rows of column `j` are untouched by
the first inner loop. -/
lemma upperPhase_frame (j : ℕ) :
    ∀ (bnd : ℕ) (m : Mat) (a b : ℕ), (bnd ≤ a ∨ b ≠ j) →
      upperPhase j bnd m a b = m a b := by
  intro bnd
  induction bnd with
  | zero => intro m a b _; rfl
  | succ i ih =>
    intro m a b h
    show updEntry (upperPhase j i m) i j _ a b = m a b
    have hne : ¬(a = i ∧ b = j) := by
      rintro ⟨rfl, rfl⟩
      rcases h with h | h
      · omega
      · exact h rfl
    rw [updEntry_other _ _ _ _ _ _ hne]
    exact ih m a b (by rcases h with h | h; exacts [Or.inl (by omega), Or.inr h])

/-- A row of column `j` already written by the first inner loop keeps its
value through the later iterations of that loop. -/
lemma upperPhase_stable (j : ℕ) (m : Mat) (i : ℕ) :
    ∀ (bnd : ℕ), i < bnd →
      upperPhase j bnd m i j = upperPhase j (i + 1) m i j := by
  intro bnd
  induction bnd with
  | zero => intro h; exact absurd h (Nat.not_lt_zero i)
  | succ b ih =>
    intro h
    rcases Nat.lt_succ_iff_lt_or_eq.mp h with h' | h'
    · show updEntry (upperPhase j b m) b j _ i j = _
      rw [updEntry_other _ _ _ _ _ _ (by rintro ⟨rfl, -⟩; omega)]
      exact ih h'
    · subst h'; rfl

/-- The value written by the first inner loop at row `i < j` of column `j`:
`mat[i][j] - Σ_{k<i} mat[i][k]·mat[k][j]`, later rows reading earlier updated
ones. -/
lemma upperPhase_val (j : ℕ) (m : Mat) (i : ℕ) (hij : i < j) :
    upperPhase j j m i j
      = m i j - ∑ k ∈ Finset.range i, m i k * upperPhase j j m k j := by
  rw [upperPhase_stable j m i j hij]
  show updEntry (upperPhase j i m) i j _ i j = _
  rw [updEntry_same]
  congr 1
  · exact upperPhase_frame j i m i j (Or.inl le_rfl)
  · apply Finset.sum_congr rfl
    intro k hk
    rw [Finset.mem_range] at hk
    congr 1
    · exact upperPhase_frame j i m i k (Or.inr (by omega))
    · rw [upperPhase_stable j m k i (by omega), ← upperPhase_stable j m k j (by omega)]

/-- Both branches of the pivot comparison produce the same matrix. -/
lemma elimPhase_mat_succ (scal : Vec) (j cnt : ℕ) (m : Mat) :
    (elimPhase scal j (cnt + 1) m).1
      = updEntry (elimPhase scal j cnt m).1 (j + cnt) j
          ((elimPhase scal j cnt m).1 (j + cnt) j
            - ∑ k ∈ Finset.range j,
                (elimPhase scal j cnt m).1 (j + cnt) k
                  * (elimPhase scal j cnt m).1 k j) := by
  show (if _ > _ then _ else _ : Mat × ℚ × Nat).1 = _
  split <;> rfl

/-- Entries outside rows `j … j+cnt-1` of column `j` are untouched by the
second inner loop. -/
lemma elimPhase_frame (scal : Vec) (j : ℕ) :
    ∀ (cnt : ℕ) (m : Mat) (a b : ℕ), (b ≠ j ∨ a < j ∨ j + cnt ≤ a) →
      (elimPhase scal j cnt m).1 a b = m a b := by
  intro cnt
  induction cnt with
  | zero => intro m a b _; rfl
  | succ c ih =>
    intro m a b h
    rw [elimPhase_mat_succ]
    rw [updEntry_other _ _ _ _ _ _ (by rintro ⟨rfl, rfl⟩; omega)]
    exact ih m a b (by
      rcases h with h | h | h
      exacts [Or.inl h, Or.inr (Or.inl h), Or.inr (Or.inr (by omega))])

/-- A row of column `j` already written by the second inner loop keeps its
value through the later iterations of that loop. -/
lemma elimPhase_stable (scal : Vec) (j : ℕ) (m : Mat) (t : ℕ) :
    ∀ (cnt : ℕ), t < cnt →
      (elimPhase scal j cnt m).1 (j + t) j
        = (elimPhase scal j (t + 1) m).1 (j + t) j := by
  intro cnt
  induction cnt with
  | zero => intro h; exact absurd h (Nat.not_lt_zero t)
  | succ c ih =>
    intro h
    rcases Nat.lt_succ_iff_lt_or_eq.mp h with h' | h'
    · rw [elimPhase_mat_succ]
      rw [updEntry_other _ _ _ _ _ _ (by rintro ⟨he, -⟩; omega)]
      exact ih h'
    · subst h'; rfl

/-- The value written by the second inner loop at row `j + t` of column `j`:
`mat[i][j] - Σ_{k<j} mat[i][k]·mat[k][j]` in terms of the matrix the loop
started from. -/
lemma elimPhase_val (scal : Vec) (j : ℕ) (m : Mat) (t cnt : ℕ) (ht : t < cnt) :
    (elimPhase scal j cnt m).1 (j + t) j
      = m (j + t) j - ∑ k ∈ Finset.range j, m (j + t) k * m k j := by
  rw [elimPhase_stable scal j m t cnt ht, elimPhase_mat_succ, updEntry_same]
  congr 1
  · exact elimPhase_frame scal j t m (j + t) j (Or.inr (Or.inr le_rfl))
  · apply Finset.sum_congr rfl
    intro k hk
    rw [Finset.mem_range] at hk
    congr 1
    · exact elimPhase_frame scal j t m (j + t) k (Or.inl (by omega))
    · exact elimPhase_frame scal j t m k j (Or.inr (Or.inl hk))

end Go

namespace Go

/-- One unfolding of `elimPhase`, fully explicit. -/
lemma elimPhase_succ_eq (scal : Vec) (j cnt : ℕ) (m : Mat) :
    elimPhase scal j (cnt + 1) m
      = (if |((elimPhase scal j cnt m).1 (j + cnt) j
            - ∑ k ∈ Finset.range j,
                (elimPhase scal j cnt m).1 (j + cnt) k * (elimPhase scal j cnt m).1 k j)
            * scal (j + cnt)| > (elimPhase scal j cnt m).2.1
         then (updEntry (elimPhase scal j cnt m).1 (j + cnt) j
                ((elimPhase scal j cnt m).1 (j + cnt) j
                  - ∑ k ∈ Finset.range j,
                      (elimPhase scal j cnt m).1 (j + cnt) k * (elimPhase scal j cnt m).1 k j),
               |((elimPhase scal j cnt m).1 (j + cnt) j
                  - ∑ k ∈ Finset.range j,
                      (elimPhase scal j cnt m).1 (j + cnt) k * (elimPhase scal j cnt m).1 k j)
                 * scal (j + cnt)|, j + cnt)
         else (updEntry (elimPhase scal j cnt m).1 (j + cnt) j
                ((elimPhase scal j cnt m).1 (j + cnt) j
                  - ∑ k ∈ Finset.range j,
                      (elimPhase scal j cnt m).1 (j + cnt) k * (elimPhase scal j cnt m).1 k j),
               (elimPhase scal j cnt m).2.1, (elimPhase scal j cnt m).2.2)) := rfl

/-- The running pivot search of the second inner loop computes the first row
maximizing the scaled absolute value, with a nonnegative running maximum. -/
lemma elimPhase_pivot (scal : Vec) (j : ℕ) (m : Mat) :
    ∀ (cnt : ℕ),
      0 ≤ (elimPhase scal j cnt m).2.1
      ∧ j ≤ (elimPhase scal j cnt m).2.2
      ∧ ((elimPhase scal j cnt m).2.2 = j ∨ (elimPhase scal j cnt m).2.2 < j + cnt)
      ∧ ((elimPhase scal j cnt m).2.1 = 0 → (elimPhase scal j cnt m).2.2 = j)
      ∧ (∀ t, t < cnt →
          |(elimPhase scal j cnt m).1 (j + t) j * scal (j + t)|
            ≤ (elimPhase scal j cnt m).2.1)
      ∧ ((elimPhase scal j cnt m).2.1 ≠ 0 →
          (elimPhase scal j cnt m).2.1
              = |(elimPhase scal j cnt m).1 ((elimPhase scal j cnt m).2.2) j
                  * scal ((elimPhase scal j cnt m).2.2)|
            ∧ (elimPhase scal j cnt m).2.2 < j + cnt
            ∧ ∀ i, j ≤ i → i < (elimPhase scal j cnt m).2.2 →
                |(elimPhase scal j cnt m).1 i j * scal i|
                  < (elimPhase scal j cnt m).2.1) := by
  intro cnt
  induction cnt with
  | zero =>
    exact ⟨le_rfl, le_rfl, Or.inl rfl, fun _ => rfl, fun t ht => absurd ht (by omega),
      fun h => absurd rfl h⟩
  | succ cnt ih =>
    obtain ⟨ih0, ih1, ih2, ih3, ih4, ih5⟩ := ih
    have hkeep : ∀ t, t < cnt →
        (elimPhase scal j (cnt + 1) m).1 (j + t) j
          = (elimPhase scal j cnt m).1 (j + t) j := by
      intro t ht
      rw [elimPhase_stable scal j m t (cnt + 1) (by omega),
        ← elimPhase_stable scal j m t cnt ht]
    have hvalnew : (elimPhase scal j (cnt + 1) m).1 (j + cnt) j
        = (elimPhase scal j cnt m).1 (j + cnt) j
          - ∑ k ∈ Finset.range j,
              (elimPhase scal j cnt m).1 (j + cnt) k * (elimPhase scal j cnt m).1 k j := by
      rw [elimPhase_mat_succ, updEntry_same]
    by_cases hgt : |((elimPhase scal j cnt m).1 (j + cnt) j
            - ∑ k ∈ Finset.range j,
                (elimPhase scal j cnt m).1 (j + cnt) k * (elimPhase scal j cnt m).1 k j)
            * scal (j + cnt)| > (elimPhase scal j cnt m).2.1
    · have hsnd : (elimPhase scal j (cnt + 1) m).2
          = (|((elimPhase scal j cnt m).1 (j + cnt) j
              - ∑ k ∈ Finset.range j,
                  (elimPhase scal j cnt m).1 (j + cnt) k * (elimPhase scal j cnt m).1 k j)
              * scal (j + cnt)|, j + cnt) := by
        rw [elimPhase_succ_eq, if_pos hgt]
      have hpv : (elimPhase scal j (cnt + 1) m).2.1
          = |(elimPhase scal j (cnt + 1) m).1 (j + cnt) j * scal (j + cnt)| := by
        rw [hsnd, hvalnew]
      have hpr : (elimPhase scal j (cnt + 1) m).2.2 = j + cnt := by rw [hsnd]
      have hpos : (0 : ℚ) < (elimPhase scal j (cnt + 1) m).2.1 := by
        rw [hsnd]
        exact lt_of_le_of_lt ih0 hgt
      refine ⟨le_of_lt hpos, by omega, Or.inr (by omega), ?_, ?_, ?_⟩
      · intro h0; exact absurd h0 (ne_of_gt hpos)
      · intro t ht
        rcases Nat.lt_succ_iff_lt_or_eq.mp ht with ht' | ht'
        · rw [hkeep t ht']
          calc |(elimPhase scal j cnt m).1 (j + t) j * scal (j + t)|
              ≤ (elimPhase scal j cnt m).2.1 := ih4 t ht'
            _ ≤ (elimPhase scal j (cnt + 1) m).2.1 := by
                rw [hsnd]; exact le_of_lt hgt
        · subst ht'
          rw [hpv]
      · intro _
        refine ⟨by rw [hpv, hpr], by omega, ?_⟩
        intro i hji hip
        rw [hpr] at hip
        have ht : i - j < cnt := by omega
        have hieq : i = j + (i - j) := by omega
        rw [hieq, hkeep _ ht]
        calc |(elimPhase scal j cnt m).1 (j + (i - j)) j * scal (j + (i - j))|
            ≤ (elimPhase scal j cnt m).2.1 := ih4 _ ht
          _ < (elimPhase scal j (cnt + 1) m).2.1 := by rw [hsnd]; exact hgt
    · have hsnd : (elimPhase scal j (cnt + 1) m).2 = (elimPhase scal j cnt m).2 := by
        rw [elimPhase_succ_eq, if_neg hgt]
      have hle := not_lt.mp hgt
      refine ⟨by rw [hsnd]; exact ih0, by rw [hsnd]; exact ih1, ?_, ?_, ?_, ?_⟩
      · rw [hsnd]
        rcases ih2 with h | h
        exacts [Or.inl h, Or.inr (by omega)]
      · intro h0; rw [hsnd] at h0 ⊢; exact ih3 h0
      · intro t ht
        rw [hsnd]
        rcases Nat.lt_succ_iff_lt_or_eq.mp ht with ht' | ht'
        · rw [hkeep t ht']; exact ih4 t ht'
        · subst ht'
          rw [hvalnew]
          exact hle
      · intro h0
        rw [hsnd] at h0 ⊢
        obtain ⟨he, hlt, hstrict⟩ := ih5 h0
        have hprlt : (elimPhase scal j cnt m).2.2 < j + cnt := hlt
        have hpr' : (elimPhase scal j (cnt + 1) m).1 ((elimPhase scal j cnt m).2.2) j
            = (elimPhase scal j cnt m).1 ((elimPhase scal j cnt m).2.2) j := by
          have h1 : (elimPhase scal j cnt m).2.2
              = j + ((elimPhase scal j cnt m).2.2 - j) := by omega
          rw [h1]
          exact hkeep _ (by omega)
        refine ⟨?_, by omega, ?_⟩
        · rw [hpr']
          exact he
        · intro i hji hip
          have hilt : i < j + cnt := by omega
          have hieq : i = j + (i - j) := by omega
          rw [hieq, hkeep _ (by omega)]
          rw [hieq] at hip hji
          exact hstrict _ (by omega) (by omega)

end Go

/-! ## Scaling pass and error propagation -/

namespace Go

lemma rowMaxAbs_nonneg (m : Mat) (i : ℕ) : ∀ ncols, 0 ≤ rowMaxAbs m i ncols := by
  intro ncols
  induction ncols with
  | zero => exact le_rfl
  | succ j ih =>
    show (0 : ℚ) ≤ if |m i j| > rowMaxAbs m i j then |m i j| else rowMaxAbs m i j
    split
    · exact abs_nonneg _
    · exact ih

lemma rowMaxAbs_mono (m : Mat) (i : ℕ) : ∀ b ncols, b ≤ ncols →
    rowMaxAbs m i b ≤ rowMaxAbs m i ncols := by
  intro b ncols
  induction ncols with
  | zero => intro h; rw [Nat.le_zero.mp h]
  | succ j ih =>
    intro h
    rcases Nat.lt_succ_iff_lt_or_eq.mp (Nat.lt_succ_of_le h) with h' | h'
    · have h1 := ih (by omega)
      show rowMaxAbs m i b ≤ if |m i j| > rowMaxAbs m i j then |m i j| else rowMaxAbs m i j
      split
      · exact le_of_lt (lt_of_le_of_lt h1 (by assumption))
      · exact h1
    · rw [h']

lemma le_rowMaxAbs (m : Mat) (i b ncols : ℕ) (hb : b < ncols) :
    |m i b| ≤ rowMaxAbs m i ncols := by
  have h1 : |m i b| ≤ rowMaxAbs m i (b + 1) := by
    show |m i b| ≤ if |m i b| > rowMaxAbs m i b then |m i b| else rowMaxAbs m i b
    split
    · exact le_rfl
    · exact not_lt.mp (by assumption)
  exact le_trans h1 (rowMaxAbs_mono m i (b + 1) ncols hb)

lemma rowMaxAbs_eq_zero_iff (m : Mat) (i ncols : ℕ) :
    rowMaxAbs m i ncols = 0 ↔ ∀ b, b < ncols → m i b = 0 := by
  constructor
  · intro h b hb
    have := le_rowMaxAbs m i b ncols hb
    rw [h] at this
    exact abs_eq_zero.mp (le_antisymm this (abs_nonneg _))
  · intro h
    induction ncols with
    | zero => rfl
    | succ j ih =>
      show (if |m i j| > rowMaxAbs m i j then |m i j| else rowMaxAbs m i j) = 0
      rw [h j (by omega), abs_zero]
      rw [ih (fun b hb => h b (by omega))]
      simp

lemma computeScaling_ok_val (m : Mat) (ncols : ℕ) :
    ∀ (cnt : ℕ) (s : Vec), computeScaling m ncols cnt = .ok s →
      ∀ i, i < cnt → s i = 1 / rowMaxAbs m i ncols ∧ rowMaxAbs m i ncols ≠ 0 := by
  intro cnt
  induction cnt with
  | zero => intro s _ i hi; exact absurd hi (by omega)
  | succ c ih =>
    intro s h i hi
    rw [computeScaling] at h
    cases h' : computeScaling m ncols c with
    | error e => rw [h'] at h; simp [Bind.bind, Except.bind] at h
    | ok s' =>
      rw [h'] at h
      simp only [Bind.bind, Except.bind] at h
      by_cases hmx : rowMaxAbs m c ncols = 0
      · rw [if_pos hmx] at h
        simp [throw, throwThe, MonadExceptOf.throw] at h
      · rw [if_neg hmx] at h
        have hs : s = updVec s' c (1 / rowMaxAbs m c ncols) := by
          cases h; rfl
        subst hs
        rcases Nat.lt_succ_iff_lt_or_eq.mp hi with hi' | hi'
        · rw [updVec_other _ _ _ _ (by omega)]
          exact ih s' h' i hi'
        · subst hi'
          rw [updVec_same]
          exact ⟨rfl, hmx⟩

lemma computeScaling_error (m : Mat) (ncols : ℕ) :
    ∀ (cnt : ℕ) (e : LUerror), computeScaling m ncols cnt = .error e →
      e = .nullRow ∧ ∃ i, i < cnt ∧ rowMaxAbs m i ncols = 0 := by
  intro cnt
  induction cnt with
  | zero => intro e h; exact absurd h (by rw [computeScaling]; simp)
  | succ c ih =>
    intro e h
    rw [computeScaling] at h
    cases h' : computeScaling m ncols c with
    | error e' =>
      rw [h'] at h
      simp only [Bind.bind, Except.bind] at h
      cases h
      obtain ⟨he, i, hi, hz⟩ := ih _ h'
      exact ⟨he, i, by omega, hz⟩
    | ok s' =>
      rw [h'] at h
      simp only [Bind.bind, Except.bind] at h
      by_cases hmx : rowMaxAbs m c ncols = 0
      · rw [if_pos hmx] at h
        simp only [throw, throwThe, MonadExceptOf.throw] at h
        cases h
        exact ⟨rfl, c, by omega, hmx⟩
      · rw [if_neg hmx] at h
        cases h

end Go

namespace Go

lemma columnStep_error (n j : ℕ) (st : LUSt) (e : LUerror)
    (h : columnStep n j st = .error e) :
    e = .singular
    ∧ (elimPhase st.scal j (n - j) (upperPhase j j st.mat)).1
        (elimPhase st.scal j (n - j) (upperPhase j j st.mat)).2.2 j = 0 := by
  rw [columnStep] at h
  by_cases hp : (elimPhase st.scal j (n - j) (upperPhase j j st.mat)).1
      (elimPhase st.scal j (n - j) (upperPhase j j st.mat)).2.2 j = 0
  · rw [if_pos hp] at h
    simp only [throw, throwThe, MonadExceptOf.throw] at h
    cases h
    exact ⟨rfl, hp⟩
  · rw [if_neg hp] at h
    cases h

lemma columnStep_ok_of (n j : ℕ) (st : LUSt)
    (hp : (elimPhase st.scal j (n - j) (upperPhase j j st.mat)).1
        (elimPhase st.scal j (n - j) (upperPhase j j st.mat)).2.2 j ≠ 0) :
    columnStep n j st = .ok (postDivide n j (postSwap n j st)) := by
  rw [columnStep, if_neg hp]

lemma columnStep_ok (n j : ℕ) (st st' : LUSt) (h : columnStep n j st = .ok st') :
    (elimPhase st.scal j (n - j) (upperPhase j j st.mat)).1
        (elimPhase st.scal j (n - j) (upperPhase j j st.mat)).2.2 j ≠ 0
    ∧ st' = postDivide n j (postSwap n j st) := by
  rw [columnStep] at h
  by_cases hp : (elimPhase st.scal j (n - j) (upperPhase j j st.mat)).1
      (elimPhase st.scal j (n - j) (upperPhase j j st.mat)).2.2 j = 0
  · rw [if_pos hp] at h
    simp only [throw, throwThe, MonadExceptOf.throw] at h
    cases h
  · rw [if_neg hp] at h
    cases h
    exact ⟨hp, rfl⟩

lemma croutLoop_succ (n j : ℕ) (st : LUSt) :
    croutLoop n (j + 1) st
      = Except.bind (croutLoop n j st) (columnStep n j) := rfl

lemma croutLoop_error_singular (n : ℕ) (st : LUSt) :
    ∀ (j : ℕ) (e : LUerror), croutLoop n j st = .error e → e = .singular := by
  intro j
  induction j with
  | zero => intro e h; cases h
  | succ j ih =>
    intro e h
    rw [croutLoop_succ] at h
    cases h' : croutLoop n j st with
    | error e' =>
      rw [h'] at h
      cases h
      exact ih _ h'
    | ok stj =>
      rw [h'] at h
      exact (columnStep_error n j stj e h).1

lemma croutLoop_error_mono (n : ℕ) (st : LUSt) (j : ℕ) (e : LUerror)
    (h : croutLoop n j st = .error e) :
    ∀ j', j ≤ j' → croutLoop n j' st = .error e := by
  intro j'
  induction j' with
  | zero => intro hj; rw [Nat.le_zero.mp hj] at h; exact h
  | succ j' ih =>
    intro hj
    rcases Nat.lt_succ_iff_lt_or_eq.mp (Nat.lt_succ_of_le hj) with h' | h'
    · have := ih (by omega)
      rw [croutLoop_succ, this]
      rfl
    · rw [← h']
      exact h

lemma croutLoop_first_failure (n : ℕ) (st : LUSt) :
    ∀ (m : ℕ) (e : LUerror), croutLoop n m st = .error e →
      ∃ j stj, j < m ∧ croutLoop n j st = .ok stj ∧ columnStep n j stj = .error e := by
  intro m
  induction m with
  | zero => intro e h; cases h
  | succ m ih =>
    intro e h
    rw [croutLoop_succ] at h
    cases h' : croutLoop n m st with
    | error e' =>
      rw [h'] at h
      cases h
      obtain ⟨j, stj, hj, hok, herr⟩ := ih _ h'
      exact ⟨j, stj, by omega, hok, herr⟩
    | ok stm =>
      rw [h'] at h
      exact ⟨m, stm, by omega, h', h⟩

lemma croutLoop_ok_decomp (n j : ℕ) (st st' : LUSt)
    (h : croutLoop n (j + 1) st = .ok st') :
    ∃ stj, croutLoop n j st = .ok stj ∧ columnStep n j stj = .ok st' := by
  rw [croutLoop_succ] at h
  cases h' : croutLoop n j st with
  | error e => rw [h'] at h; cases h
  | ok stj => rw [h'] at h; exact ⟨stj, rfl, h⟩

lemma croutLoop_ok_prefix (n : ℕ) (st : LUSt) :
    ∀ (m : ℕ) (st' : LUSt), croutLoop n m st = .ok st' →
      ∀ j, j ≤ m → ∃ stj, croutLoop n j st = .ok stj := by
  intro m
  induction m with
  | zero => intro st' h j hj; rw [Nat.le_zero.mp hj]; exact ⟨st', h⟩
  | succ m ih =>
    intro st' h j hj
    obtain ⟨stm, hm, _⟩ := croutLoop_ok_decomp n m st st' h
    rcases Nat.lt_succ_iff_lt_or_eq.mp (Nat.lt_succ_of_le hj) with h' | h'
    · exact ih stm hm j (by omega)
    · rw [h']; exact ⟨st', h⟩

end Go

/-! ## The decomposition invariant -/

namespace Go

/-- `L[i][k]` read from the in-place state: stored multipliers strictly below
the diagonal, `1` on it, `0` above. -/
def lval (st : LUSt) (i k : ℕ) : ℚ :=
  if k < i then st.mat i k else if k = i then 1 else 0

/-- `U[k][c]` read from the in-place state: stored on and above the diagonal,
`0` below. -/
def uval (st : LUSt) (k c : ℕ) : ℚ :=
  if k ≤ c then st.mat k c else 0

/-- The induction invariant of Crout's outer loop, after the columns `< j`
have been processed: columns `≥ j` still hold the row-permuted input, the
processed columns satisfy the `L·U = P·A` equations, `perm` is a permutation
of `0 … n-1` (identity above), the scaling factors follow the rows, the
processed diagonal is nonzero, and the parity flag is the sign of the
accumulated permutation. -/
structure Inv (A0 : Mat) (n j : ℕ) (st : LUSt) : Prop where
  untouched : ∀ i b, i < n → j ≤ b → b < n → st.mat i b = A0 (st.perm i) b
  eqn : ∀ i c, i < n → c < j →
    ∑ k ∈ Finset.range n, lval st i k * uval st k c = A0 (st.perm i) c
  permBound : ∀ i, i < n → st.perm i < n
  permInj : ∀ i i', i < n → i' < n → st.perm i = st.perm i' → i = i'
  permFix : ∀ i, n ≤ i → st.perm i = i
  scalInv : ∀ i, i < n → st.scal i = 1 / rowMaxAbs A0 (st.perm i) n
  diagNZ : ∀ c, c < j → st.mat c c ≠ 0
  sign : ∃ σ : Equiv.Perm (Fin n), (∀ i : Fin n, st.perm i = σ i)
    ∧ Equiv.Perm.sign σ = (if st.parity then 1 else -1)

/-- Truncation of the `L·U` row-column sum when `i ≤ c`. -/
lemma sum_lu_le (st : LUSt) (n i c : ℕ) (hin : i < n) (hic : i ≤ c) :
    ∑ k ∈ Finset.range n, lval st i k * uval st k c
      = (∑ k ∈ Finset.range i, st.mat i k * st.mat k c) + st.mat i c := by
  have h1 : ∑ k ∈ Finset.range n, lval st i k * uval st k c
      = ∑ k ∈ Finset.range (i + 1), lval st i k * uval st k c := by
    symm
    apply Finset.sum_subset
    · exact Finset.range_subset.mpr hin
    · intro k _ hk
      rw [Finset.mem_range] at hk
      push_neg at hk
      rw [lval, if_neg (by omega), if_neg (by omega), zero_mul]
  rw [h1, Finset.sum_range_succ]
  congr 1
  · apply Finset.sum_congr rfl
    intro k hk
    rw [Finset.mem_range] at hk
    rw [lval, if_pos hk, uval, if_pos (by omega)]
  · rw [lval, if_neg (by omega), if_pos rfl, uval, if_pos hic, one_mul]

/-- Truncation of the `L·U` row-column sum when `c < i`. -/
lemma sum_lu_gt (st : LUSt) (n i c : ℕ) (hcn : c < n) (hic : c < i) :
    ∑ k ∈ Finset.range n, lval st i k * uval st k c
      = ∑ k ∈ Finset.range (c + 1), st.mat i k * st.mat k c := by
  have h1 : ∑ k ∈ Finset.range n, lval st i k * uval st k c
      = ∑ k ∈ Finset.range (c + 1), lval st i k * uval st k c := by
    symm
    apply Finset.sum_subset
    · exact Finset.range_subset.mpr hcn
    · intro k _ hk
      rw [Finset.mem_range] at hk
      push_neg at hk
      rw [uval, if_neg (by omega), mul_zero]
  rw [h1]
  apply Finset.sum_congr rfl
  intro k hk
  rw [Finset.mem_range] at hk
  rw [lval, if_pos (by omega), uval, if_pos (by omega)]

/-- The index transposition underlying `std::swap` on a function. -/
def swapIdx (i j : ℕ) : ℕ → ℕ :=
  fun a => if a = i then j else if a = j then i else a

lemma swapFn_eq_comp {α : Type} (f : Nat → α) (i j : Nat) :
    ∀ a, swapFn f i j a = f (swapIdx i j a) := by
  intro a
  simp only [swapFn, swapIdx]
  split_ifs <;> rfl

lemma swapIdx_involutive (i j a : ℕ) : swapIdx i j (swapIdx i j a) = a := by
  simp only [swapIdx]
  split_ifs <;> omega

lemma swapIdx_lt (i j n a : ℕ) (hi : i < n) (hj : j < n) (ha : a < n) :
    swapIdx i j a < n := by
  simp only [swapIdx]
  split_ifs <;> omega

lemma swapIdx_fix (i j n a : ℕ) (hi : i < n) (hj : j < n) (ha : n ≤ a) :
    swapIdx i j a = a := by
  simp only [swapIdx]
  split_ifs <;> omega

/-- The conditional swap, written unconditionally (when the pivot row is `j`
itself, swapping is the identity). -/
lemma postSwap_eq (n j : ℕ) (st : LUSt) :
    postSwap n j st
      = ⟨swapRows (elimPhase st.scal j (n - j) (upperPhase j j st.mat)).1 n
            (elimPhase st.scal j (n - j) (upperPhase j j st.mat)).2.2 j,
         swapFn st.scal j (elimPhase st.scal j (n - j) (upperPhase j j st.mat)).2.2,
         swapFn st.perm j (elimPhase st.scal j (n - j) (upperPhase j j st.mat)).2.2,
         if (elimPhase st.scal j (n - j) (upperPhase j j st.mat)).2.2 = j
           then st.parity else ! st.parity⟩ := by
  rw [postSwap]
  by_cases hpr : (elimPhase st.scal j (n - j) (upperPhase j j st.mat)).2.2 = j
  · rw [if_neg (by simpa using hpr), if_pos hpr]
    obtain ⟨m0, s0, p0, b0⟩ := st
    simp only [LUSt.mk.injEq]
    refine ⟨?_, ?_, ?_, trivial⟩
    · funext a b
      rw [hpr]
      by_cases hb : b < n
      · by_cases ha : a = j
        · subst ha; rw [swapRows_snd _ _ _ _ _ hb]
        · rw [swapRows_other _ _ _ _ _ _ ha ha]
      · rw [swapRows_wide _ _ _ _ _ _ (by omega)]
    · funext a
      rw [hpr]
      by_cases ha : a = j
      · subst ha; rw [swapFn_left]
      · rw [swapFn_other _ _ _ _ ha ha]
    · funext a
      rw [hpr]
      by_cases ha : a = j
      · subst ha; rw [swapFn_left]
      · rw [swapFn_other _ _ _ _ ha ha]
  · rw [if_pos (by simpa using hpr), if_neg hpr]

/-- The trailing division, written unconditionally (at the last column the
divided range is empty). -/
lemma postDivide_eq (n j : ℕ) (st' : LUSt) (hj : j < n) :
    postDivide n j st' = { st' with mat := divideBelow st'.mat n j } := by
  rw [postDivide]
  by_cases h : j < n - 1
  · rw [if_pos h]
  · rw [if_neg h]
    obtain ⟨m0, s0, p0, b0⟩ := st'
    simp only [LUSt.mk.injEq]
    refine ⟨?_, trivial, trivial, trivial⟩
    funext a b
    show m0 a b = if b = j ∧ j < a ∧ a < n then m0 a b * (1 / m0 j j) else m0 a b
    rw [if_neg (by rintro ⟨-, h1, h2⟩; omega)]

end Go


namespace Go

/-- The invariant is preserved by one column of Crout's algorithm (stated on
the unconditional form of the post-state). -/
lemma inv_step_core (A0 : Mat) (n j : ℕ) (st : LUSt) (m1 m2 : Mat) (pr : ℕ)
    (hj : j < n)
    (hm1 : m1 = upperPhase j j st.mat)
    (hm2 : m2 = (elimPhase st.scal j (n - j) m1).1)
    (hpr : pr = (elimPhase st.scal j (n - j) m1).2.2)
    (hpiv : m2 pr j ≠ 0)
    (hinv : Inv A0 n j st) :
    Inv A0 n (j + 1)
      ⟨divideBelow (swapRows m2 n pr j) n j, swapFn st.scal j pr, swapFn st.perm j pr,
       if pr = j then st.parity else ! st.parity⟩ := by
  obtain ⟨hunt, heqn, hpb, hpi, hpf, hsc, hdg, hsgn⟩ := hinv
  have hprlb : j ≤ pr := by rw [hpr]; exact (elimPhase_pivot st.scal j m1 (n - j)).2.1
  have hprub : pr < n := by
    rcases (elimPhase_pivot st.scal j m1 (n - j)).2.2.1 with h | h
    · rw [hpr, h]; exact hj
    · rw [hpr]; omega
  have hm1col : ∀ i, i < j →
      m1 i j = st.mat i j - ∑ k ∈ Finset.range i, st.mat i k * m1 k j := by
    intro i hij
    rw [hm1]
    exact upperPhase_val j st.mat i hij
  have hm1frame : ∀ a b, j ≤ a ∨ b ≠ j → m1 a b = st.mat a b := by
    intro a b h
    rw [hm1]
    exact upperPhase_frame j j st.mat a b h
  have hm2frame : ∀ a b, b ≠ j ∨ a < j ∨ n ≤ a → m2 a b = m1 a b := by
    intro a b h
    rw [hm2]
    apply elimPhase_frame
    rcases h with h | h | h
    exacts [Or.inl h, Or.inr (Or.inl h), Or.inr (Or.inr (by omega))]
  have hm2m0 : ∀ a b, b ≠ j → m2 a b = st.mat a b := fun a b hb =>
    (hm2frame a b (Or.inl hb)).trans (hm1frame a b (Or.inr hb))
  have hm2col : ∀ i, j ≤ i → i < n →
      m2 i j = st.mat i j - ∑ k ∈ Finset.range j, st.mat i k * m1 k j := by
    intro i hji hin
    have hieq : i = j + (i - j) := by omega
    have ht : i - j < n - j := by omega
    rw [hm2, hieq, elimPhase_val st.scal j m1 (i - j) (n - j) ht, ← hieq]
    congr 1
    · exact hm1frame i j (Or.inl hji)
    · apply Finset.sum_congr rfl
      intro k hk
      rw [Finset.mem_range] at hk
      rw [hm1frame i k (Or.inr (by omega))]
  have hswj : ∀ b, b < n → swapRows m2 n pr j j b = m2 pr b := fun b hb =>
    swapRows_snd m2 n pr j b hb
  have hswpr : ∀ b, b < n → swapRows m2 n pr j pr b = m2 j b := fun b hb =>
    swapRows_fst m2 n pr j b hb
  have hdvo : ∀ a b, b ≠ j ∨ a ≤ j ∨ n ≤ a →
      divideBelow (swapRows m2 n pr j) n j a b = swapRows m2 n pr j a b := by
    intro a b h
    show (if b = j ∧ j < a ∧ a < n then _ else _) = _
    rw [if_neg (by rintro ⟨rfl, h1, h2⟩; rcases h with h | h | h <;> omega)]
  have hdvj : ∀ a, j < a → a < n →
      divideBelow (swapRows m2 n pr j) n j a j
        = swapRows m2 n pr j a j * (1 / swapRows m2 n pr j j j) := by
    intro a h1 h2
    show (if _ ∧ _ ∧ _ then _ else _) = _
    rw [if_pos ⟨rfl, h1, h2⟩]
  have hswjj : swapRows m2 n pr j j j = m2 pr j := hswj j hj
  have hrow : ∀ a b, b < n → b ≠ j →
      divideBelow (swapRows m2 n pr j) n j a b = st.mat (swapIdx j pr a) b := by
    intro a b hbn hbj
    rw [hdvo a b (Or.inl hbj)]
    by_cases ha1 : a = j
    · subst ha1
      rw [hswj b hbn, hm2m0 pr b hbj]
      congr 1
      simp [swapIdx]
    · by_cases ha2 : a = pr
      · subst ha2
        rw [hswpr b hbn, hm2m0 j b hbj]
        congr 1
        simp only [swapIdx]
        split_ifs <;> omega
      · rw [swapRows_other m2 n pr j a b ha2 ha1, hm2m0 a b hbj]
        congr 1
        simp only [swapIdx, if_neg ha1, if_neg ha2]
  have hup : ∀ k, k < j → divideBelow (swapRows m2 n pr j) n j k j = m1 k j := by
    intro k hk
    rw [hdvo k j (Or.inr (Or.inl (by omega)))]
    rw [swapRows_other m2 n pr j k j (by omega) (by omega)]
    exact hm2frame k j (Or.inr (Or.inl hk))
  have hjjval : divideBelow (swapRows m2 n pr j) n j j j = m2 pr j := by
    rw [hdvo j j (Or.inr (Or.inl le_rfl)), hswjj]
  have hswapIdx_low : ∀ a, a < j → swapIdx j pr a = a := by
    intro a ha
    simp only [swapIdx]
    split_ifs <;> omega
  have hswapIdx_j : swapIdx j pr j = pr := by simp [swapIdx]
  set st' : LUSt :=
    ⟨divideBelow (swapRows m2 n pr j) n j, swapFn st.scal j pr, swapFn st.perm j pr,
     if pr = j then st.parity else ! st.parity⟩ with hst'
  have hmat : st'.mat = divideBelow (swapRows m2 n pr j) n j := rfl
  have hpermc : ∀ a, st'.perm a = st.perm (swapIdx j pr a) := fun a =>
    swapFn_eq_comp st.perm j pr a
  refine ⟨?_, ?_, ?_, ?_, ?_, ?_, ?_, ?_⟩
  · -- untouched
    intro i b hin hjb hbn
    rw [hmat, hrow i b hbn (by omega), hpermc i]
    exact hunt (swapIdx j pr i) b (swapIdx_lt j pr n i hj hprub hin) (by omega) hbn
  · -- eqn
    intro i c hin hc
    rcases Nat.lt_succ_iff_lt_or_eq.mp hc with hcj | hcj
    · have hcn : c < n := by omega
      rcases le_or_lt i c with hic | hic
      · -- i ≤ c < j : row i is untouched
        have hij : i < j := by omega
        have hii : swapIdx j pr i = i := hswapIdx_low i hij
        rw [sum_lu_le st' n i c hin hic, hpermc i, hii,
          ← heqn i c hin hcj, sum_lu_le st n i c hin hic]
        congr 1
        · apply Finset.sum_congr rfl
          intro k hk
          rw [Finset.mem_range] at hk
          rw [hmat, hrow i k (by omega) (by omega), hii,
            hrow k c (by omega) (by omega), hswapIdx_low k (by omega)]
        · rw [hmat, hrow i c (by omega) (by omega), hii]
      · -- c < i
        have hci' : c < swapIdx j pr i := by
          simp only [swapIdx]
          split_ifs <;> omega
        have hi'n : swapIdx j pr i < n := swapIdx_lt j pr n i hj hprub hin
        rw [sum_lu_gt st' n i c hcn hic, hpermc i,
          ← heqn (swapIdx j pr i) c hi'n hcj,
          sum_lu_gt st n (swapIdx j pr i) c hcn hci']
        apply Finset.sum_congr rfl
        intro k hk
        rw [Finset.mem_range] at hk
        rw [hmat, hrow i k (by omega) (by omega),
          hrow k c (by omega) (by omega), hswapIdx_low k (by omega)]
    · -- c = j : the freshly processed column
      subst hcj
      rcases Nat.lt_trichotomy i c with hij | hij | hij
      · -- i < j
        have hii : swapIdx c pr i = i := hswapIdx_low i hij
        have hsum : ∑ k ∈ Finset.range i, st'.mat i k * st'.mat k c
            = ∑ k ∈ Finset.range i, st.mat i k * m1 k c := by
          apply Finset.sum_congr rfl
          intro k hk
          rw [Finset.mem_range] at hk
          rw [hmat, hrow i k (by omega) (by omega), hii, hup k (by omega)]
        rw [sum_lu_le st' n i c hin (le_of_lt hij), hsum, hmat, hup i hij,
          hm1col i hij, hpermc i, hii, ← hunt i c hin le_rfl hj]
        ring
      · -- i = j
        subst hij
        have hsum : ∑ k ∈ Finset.range i, st'.mat i k * st'.mat k i
            = ∑ k ∈ Finset.range i, st.mat pr k * m1 k i := by
          apply Finset.sum_congr rfl
          intro k hk
          rw [Finset.mem_range] at hk
          rw [hmat, hrow i k (by omega) (by omega), hswapIdx_j, hup k (by omega)]
        rw [sum_lu_le st' n i i hin le_rfl, hsum, hmat, hjjval,
          hm2col pr hprlb hprub, hpermc i, hswapIdx_j, ← hunt pr i hprub le_rfl hj]
        ring
      · -- j < i
        have hi'ge : c ≤ swapIdx c pr i := by
          simp only [swapIdx]
          split_ifs <;> omega
        have hi'n : swapIdx c pr i < n := swapIdx_lt c pr n i hj hprub hin
        have hsum : ∑ k ∈ Finset.range c, st'.mat i k * st'.mat k c
            = ∑ k ∈ Finset.range c, st.mat (swapIdx c pr i) k * m1 k c := by
          apply Finset.sum_congr rfl
          intro k hk
          rw [Finset.mem_range] at hk
          rw [hmat, hrow i k (by omega) (by omega), hup k (by omega)]
        have hswi : swapRows m2 n pr c i c = m2 (swapIdx c pr i) c := by
          by_cases h1 : i = pr
          · subst h1
            rw [hswpr c hj]
            congr 1
            simp only [swapIdx]
            split_ifs <;> omega
          · rw [swapRows_other m2 n pr c i c h1 (by omega)]
            congr 1
            simp only [swapIdx, if_neg (by omega : ¬ i = c), if_neg h1]
        have hidiv : st'.mat i c * st'.mat c c = m2 (swapIdx c pr i) c := by
          rw [hmat, hjjval, hdvj i hij hin, hswjj, hswi, mul_assoc,
            one_div_mul_cancel hpiv, mul_one]
        rw [sum_lu_gt st' n i c hj hij, Finset.sum_range_succ, hsum, hidiv,
          hm2col (swapIdx c pr i) hi'ge hi'n, hpermc i,
          ← hunt (swapIdx c pr i) c hi'n le_rfl hj]
        ring
  · -- permBound
    intro i hin
    rw [hpermc i]
    exact hpb _ (swapIdx_lt j pr n i hj hprub hin)
  · -- permInj
    intro i1 i2 h1 h2 heq
    rw [hpermc i1, hpermc i2] at heq
    have h3 := hpi _ _ (swapIdx_lt j pr n i1 hj hprub h1)
      (swapIdx_lt j pr n i2 hj hprub h2) heq
    have h4 := congrArg (swapIdx j pr) h3
    rwa [swapIdx_involutive, swapIdx_involutive] at h4
  · -- permFix
    intro i hni
    rw [hpermc i, swapIdx_fix j pr n i hj hprub hni]
    exact hpf i hni
  · -- scalInv
    intro i hin
    show swapFn st.scal j pr i = _
    rw [swapFn_eq_comp, hpermc i]
    exact hsc _ (swapIdx_lt j pr n i hj hprub hin)
  · -- diagNZ
    intro d hd
    rcases Nat.lt_succ_iff_lt_or_eq.mp hd with hdj | hdj
    · rw [hmat, hrow d d (by omega) (by omega), hswapIdx_low d hdj]
      exact hdg d hdj
    · subst hdj
      rw [hmat, hjjval]
      exact hpiv
  · -- sign
    obtain ⟨σ, hσ, hσs⟩ := hsgn
    have hswapfin : ∀ i : Fin n,
        ((Equiv.swap (⟨j, hj⟩ : Fin n) ⟨pr, hprub⟩) i : ℕ) = swapIdx j pr (i : ℕ) := by
      intro i
      rw [Equiv.swap_apply_def, apply_ite (Fin.val), apply_ite (Fin.val)]
      simp only [swapIdx]
      by_cases h1 : (i : ℕ) = j
      · rw [if_pos h1, if_pos (Fin.ext h1 : i = ⟨j, hj⟩)]
      · rw [if_neg h1, if_neg (fun hc => h1 (congrArg Fin.val hc))]
        by_cases h2 : (i : ℕ) = pr
        · rw [if_pos h2, if_pos (Fin.ext h2 : i = ⟨pr, hprub⟩)]
        · rw [if_neg h2, if_neg (fun hc => h2 (congrArg Fin.val hc))]
    refine ⟨σ * Equiv.swap ⟨j, hj⟩ ⟨pr, hprub⟩, ?_, ?_⟩
    · intro i
      show swapFn st.perm j pr (i : ℕ) = _
      rw [Equiv.Perm.mul_apply, swapFn_eq_comp]
      have hpt : (Equiv.swap (⟨j, hj⟩ : Fin n) ⟨pr, hprub⟩) i
          = ⟨swapIdx j pr (i : ℕ),
             swapIdx_lt j pr n (i : ℕ) hj hprub i.isLt⟩ := by
        apply Fin.ext
        exact hswapfin i
      rw [hpt, ← hσ ⟨swapIdx j pr (i : ℕ), _⟩]
    · show Equiv.Perm.sign (σ * Equiv.swap ⟨j, hj⟩ ⟨pr, hprub⟩)
        = if (if pr = j then st.parity else ! st.parity) then 1 else -1
      rw [map_mul]
      by_cases hpj : pr = j
      · have hfe : (⟨pr, hprub⟩ : Fin n) = ⟨j, hj⟩ := Fin.ext hpj
        rw [if_pos hpj, hfe, Equiv.swap_self,
          show (Equiv.refl (Fin n)) = (1 : Equiv.Perm (Fin n)) from rfl,
          map_one, mul_one, hσs]
      · have hne : (⟨j, hj⟩ : Fin n) ≠ ⟨pr, hprub⟩ := by
          intro hc
          rw [Fin.ext_iff] at hc
          exact hpj hc.symm
        rw [if_neg hpj, Equiv.Perm.sign_swap hne, hσs]
        cases st.parity <;> simp

end Go

namespace Go

/-- `columnStep` preserves the invariant. -/
lemma inv_step (A0 : Mat) (n j : ℕ) (st st' : LUSt) (hj : j < n)
    (hinv : Inv A0 n j st) (hstep : columnStep n j st = .ok st') :
    Inv A0 n (j + 1) st' := by
  obtain ⟨hpiv, hst'⟩ := columnStep_ok n j st st' hstep
  rw [hst', postSwap_eq, postDivide_eq n j _ hj]
  exact inv_step_core A0 n j st _ _ _ hj rfl rfl rfl hpiv hinv

/-- The invariant at the start of Crout's loop. -/
lemma inv_init (A0 : Mat) (n : ℕ) (s : Vec) (hs : computeScaling A0 n n = .ok s) :
    Inv A0 n 0 ⟨A0, s, fun k => k, true⟩ := by
  refine ⟨?_, ?_, ?_, ?_, ?_, ?_, ?_, ?_⟩
  · intro i b _ _ _; rfl
  · intro i c _ hc; exact absurd hc (Nat.not_lt_zero c)
  · intro i hin; exact hin
  · intro i i' _ _ h; exact h
  · intro i _; rfl
  · intro i hin; exact (computeScaling_ok_val A0 n n s hs i hin).1
  · intro c hc; exact absurd hc (Nat.not_lt_zero c)
  · exact ⟨1, fun i => rfl, by simp⟩

/-- The invariant holds at every state Crout's loop reaches. -/
lemma inv_croutLoop (A0 : Mat) (n : ℕ) (st0 : LUSt) (h0 : Inv A0 n 0 st0) :
    ∀ j, j ≤ n → ∀ st, croutLoop n j st0 = .ok st → Inv A0 n j st := by
  intro j
  induction j with
  | zero => intro _ st h; cases h; exact h0
  | succ j ih =>
    intro hj st h
    obtain ⟨stj, hok, hstep⟩ := croutLoop_ok_decomp n j st0 st h
    exact inv_step A0 n j stj st (by omega) (ih (by omega) stj hok) hstep

/-- The invariant holds, with all columns processed, after a successful
`LUDecomp`. -/
lemma inv_LUDecomp (A0 : Mat) (n : ℕ) (st : LUSt) (h : LUDecomp A0 n = .ok st) :
    Inv A0 n n st := by
  rw [LUDecomp] at h
  cases hs : computeScaling A0 n n with
  | error e => rw [hs] at h; simp [Bind.bind, Except.bind] at h
  | ok s =>
    rw [hs] at h
    simp only [Bind.bind, Except.bind] at h
    exact inv_croutLoop A0 n _ (inv_init A0 n s hs) n le_rfl st h

/-- Default state used to extract a successful result in concrete runs. -/
def dfltSt : LUSt := ⟨fun _ _ => 0, fun _ => 0, fun k => k, true⟩

/-- Extract the state of a successful run (or a default). -/
def okOr (e : Except LUerror LUSt) (d : LUSt) : LUSt :=
  match e with
  | .ok st => st
  | .error _ => d

end Go

namespace Go

lemma swapRows_self (m : Mat) (ncols i : ℕ) : swapRows m ncols i i = m := by
  funext a b
  show (if b < ncols then if a = i then m i b else if a = i then m i b else m a b
        else m a b) = m a b
  split_ifs with h1 h2
  · rw [h2]
  · rfl
  · rfl

lemma swapFn_self {α : Type} (f : Nat → α) (i : ℕ) : swapFn f i i = f := by
  funext a
  show (if a = i then f i else if a = i then f i else f a) = f a
  split_ifs with h1
  · rw [h1]
  · rfl

lemma divideBelow_one (m : Mat) : divideBelow m 1 0 = m := by
  funext a b
  show (if b = 0 ∧ 0 < a ∧ a < 1 then _ else _) = m a b
  rw [if_neg (by rintro ⟨-, h1, h2⟩; omega)]

/-- On a 1×1 system a column step with nonzero entry succeeds and leaves the
state unchanged (the single matrix entry is rewritten to itself minus an empty
sum). -/
lemma columnStep_one (st : LUSt) (h : st.mat 0 0 ≠ 0) :
    columnStep 1 0 st = .ok st := by
  have hmat2 : (elimPhase st.scal 0 (1 - 0) (upperPhase 0 0 st.mat)).1
      = updEntry st.mat 0 0
          (st.mat 0 0 - ∑ k ∈ Finset.range 0, st.mat 0 k * st.mat k 0) :=
    elimPhase_mat_succ st.scal 0 0 st.mat
  have hm2v : updEntry st.mat 0 0
      (st.mat 0 0 - ∑ k ∈ Finset.range 0, st.mat 0 k * st.mat k 0) = st.mat := by
    funext a b
    by_cases hab : a = 0 ∧ b = 0
    · obtain ⟨rfl, rfl⟩ := hab
      rw [updEntry_same, Finset.sum_range_zero, sub_zero]
    · rw [updEntry_other _ _ _ _ _ _ hab]
  have hpr : (elimPhase st.scal 0 (1 - 0) (upperPhase 0 0 st.mat)).2.2 = 0 := by
    rcases (elimPhase_pivot st.scal 0 (upperPhase 0 0 st.mat) (1 - 0)).2.2.1 with h' | h'
    · exact h'
    · omega
  have hp : (elimPhase st.scal 0 (1 - 0) (upperPhase 0 0 st.mat)).1
      (elimPhase st.scal 0 (1 - 0) (upperPhase 0 0 st.mat)).2.2 0 ≠ 0 := by
    rw [hpr, hmat2, hm2v]
    exact h
  rw [columnStep_ok_of 1 0 st hp]
  rw [postSwap_eq, postDivide_eq 1 0 _ (by omega), hpr, hmat2, hm2v]
  show Except.ok (⟨divideBelow (swapRows st.mat 1 0 0) 1 0, swapFn st.scal 0 0,
    swapFn st.perm 0 0, if (0 : ℕ) = 0 then st.parity else ! st.parity⟩ : LUSt) = _
  rw [swapRows_self, divideBelow_one, swapFn_self, swapFn_self, if_pos rfl]

/-- A 1×1 matrix with nonzero entry decomposes successfully; the matrix is
unchanged, the scaling holds the reciprocal of the single row maximum, the
permutation is the identity and the parity is even. -/
lemma LUDecomp_one (m : Mat) (h : m 0 0 ≠ 0) :
    LUDecomp m 1
      = .ok ⟨m, updVec (fun _ => 0) 0 (1 / rowMaxAbs m 0 1), fun k => k, true⟩ := by
  have hrmx : rowMaxAbs m 0 1 ≠ 0 := by
    show (if |m 0 0| > rowMaxAbs m 0 0 then |m 0 0| else rowMaxAbs m 0 0) ≠ 0
    rw [if_pos (show |m 0 0| > rowMaxAbs m 0 0 from abs_pos.mpr h)]
    exact fun hc => h (abs_eq_zero.mp hc)
  have hscal : computeScaling m 1 1
      = .ok (updVec (fun _ => 0) 0 (1 / rowMaxAbs m 0 1)) := by
    have e1 : computeScaling m 1 1
        = if rowMaxAbs m 0 1 = 0 then throw .nullRow
          else .ok (updVec (fun _ => 0) 0 (1 / rowMaxAbs m 0 1)) := rfl
    rw [e1, if_neg hrmx]
  rw [LUDecomp, hscal]
  show croutLoop 1 1 ⟨m, updVec (fun _ => 0) 0 (1 / rowMaxAbs m 0 1), fun k => k, true⟩
      = _
  rw [croutLoop_succ]
  show columnStep 1 0 ⟨m, updVec (fun _ => 0) 0 (1 / rowMaxAbs m 0 1), fun k => k, true⟩
      = _
  exact columnStep_one _ h

/-- A concrete 1×1 test matrix with entry `5`. -/
def testMat : Mat := fun i j => if i = 0 ∧ j = 0 then 5 else 0

end Go

/-- C9: after every successful `LUDecomp`, the `perm` array holds a
permutation of `{0, …, n−1}`: it maps `[0, n)` into `[0, n)` injectively (a
bijection, witnessed by an `Equiv.Perm`), and is the identity elsewhere
(it was initialised to the identity sequence and modified only by swaps of
two entries below `n`). -/
theorem C9_perm_is_permutation (A0 : Go.Mat) (n : ℕ) (st : Go.LUSt)
    (h : Go.LUDecomp A0 n = .ok st) :
    (∀ i, i < n → st.perm i < n)
    ∧ (∀ i i', i < n → i' < n → st.perm i = st.perm i' → i = i')
    ∧ (∀ i, n ≤ i → st.perm i = i)
    ∧ ∃ σ : Equiv.Perm (Fin n), ∀ i : Fin n, st.perm i = σ i := by
  have hinv := Go.inv_LUDecomp A0 n st h
  exact ⟨hinv.permBound, hinv.permInj, hinv.permFix,
    hinv.sign.elim (fun σ hσ => ⟨σ, hσ.1⟩)⟩

/-- Witness for C9: a successful concrete 1×1 decomposition. -/
theorem C9_perm_is_permutation_witness :
    (⟨Go.testMat, Go.updVec (fun _ => 0) 0 (1 / Go.rowMaxAbs Go.testMat 0 1),
      fun k => k, true⟩ : Go.LUSt).perm 0 < 1 :=
  (C9_perm_is_permutation Go.testMat 1 _
    (Go.LUDecomp_one Go.testMat (by norm_num [Go.testMat]))).1 0 (by omega)

/-- C10: a successful `LUDecomp` leaves every diagonal entry of the stored
matrix nonzero — so each division by `A[i][i]` performed by
`backwardSubstitution` on such a matrix is a division by a nonzero value. -/
theorem C10_diagonal_nonzero (A0 : Go.Mat) (n : ℕ) (st : Go.LUSt)
    (h : Go.LUDecomp A0 n = .ok st) :
    ∀ c, c < n → st.mat c c ≠ 0 :=
  (Go.inv_LUDecomp A0 n st h).diagNZ

/-- Witness for C10 at the concrete 1×1 decomposition. -/
theorem C10_diagonal_nonzero_witness :
    (⟨Go.testMat, Go.updVec (fun _ => 0) 0 (1 / Go.rowMaxAbs Go.testMat 0 1),
      fun k => k, true⟩ : Go.LUSt).mat 0 0 ≠ 0 :=
  C10_diagonal_nonzero Go.testMat 1 _
    (Go.LUDecomp_one Go.testMat (by norm_num [Go.testMat])) 0 (by omega)

namespace Go

lemma columnStep_error_of (n j : ℕ) (st : LUSt)
    (hp : (elimPhase st.scal j (n - j) (upperPhase j j st.mat)).1
        (elimPhase st.scal j (n - j) (upperPhase j j st.mat)).2.2 j = 0) :
    columnStep n j st = .error .singular := by
  rw [columnStep, if_pos hp]
  rfl

/-- The pivot value selected at column `j`, when the run reaches column `j`
(`none` when the scaling pass fails or an earlier column already failed). -/
def selectedPivot (mat : Mat) (n j : ℕ) : Option ℚ :=
  match computeScaling mat n n with
  | .error _ => none
  | .ok s =>
    match croutLoop n j ⟨mat, s, fun k => k, true⟩ with
    | .error _ => none
    | .ok st =>
      some ((elimPhase st.scal j (n - j) (upperPhase j j st.mat)).1
        (elimPhase st.scal j (n - j) (upperPhase j j st.mat)).2.2 j)

lemma selectedPivot_eq_of (mat : Mat) (n j : ℕ) (s : Vec) (stj : LUSt)
    (hs : computeScaling mat n n = .ok s)
    (hcr : croutLoop n j ⟨mat, s, fun k => k, true⟩ = .ok stj) :
    selectedPivot mat n j
      = some ((elimPhase stj.scal j (n - j) (upperPhase j j stj.mat)).1
          (elimPhase stj.scal j (n - j) (upperPhase j j stj.mat)).2.2 j) := by
  rw [selectedPivot, hs]
  show (match croutLoop n j ⟨mat, s, fun k => k, true⟩ with
    | .error _ => none
    | .ok st => some ((elimPhase st.scal j (n - j) (upperPhase j j st.mat)).1
        (elimPhase st.scal j (n - j) (upperPhase j j st.mat)).2.2 j)) = _
  rw [hcr]

lemma selectedPivot_some (mat : Mat) (n j : ℕ) (q : ℚ)
    (h : selectedPivot mat n j = some q) :
    ∃ s stj, computeScaling mat n n = .ok s
      ∧ croutLoop n j ⟨mat, s, fun k => k, true⟩ = .ok stj
      ∧ (elimPhase stj.scal j (n - j) (upperPhase j j stj.mat)).1
          (elimPhase stj.scal j (n - j) (upperPhase j j stj.mat)).2.2 j = q := by
  rw [selectedPivot] at h
  split at h
  · cases h
  · rename_i s hs
    split at h
    · cases h
    · rename_i stj hcr
      exact ⟨s, stj, hs, hcr, by injection h⟩

end Go

/-- C4: at every elimination column `j`, the pivot row is the first row
`i ≥ j` maximizing `|entry(i,j) · scaling(i)|` over the eliminated column
(ties to the lowest index), the parity flag toggles exactly when the chosen
row differs from `j` (and then the two full rows are physically exchanged,
the scaling and permutation entries swapping along), and throughout a run the
scaling factors are the reciprocals of the row maxima of the original rows
currently stored at each position. -/
theorem C4_scaled_partial_pivoting (A0 : Go.Mat) (n j : ℕ) (st st' : Go.LUSt)
    (hj : j < n) (hstep : Go.columnStep n j st = .ok st') :
    (j ≤ (Go.elimPhase st.scal j (n - j) (Go.upperPhase j j st.mat)).2.2
      ∧ (Go.elimPhase st.scal j (n - j) (Go.upperPhase j j st.mat)).2.2 < n)
    ∧ (∀ i, j ≤ i → i < n →
        |(Go.elimPhase st.scal j (n - j) (Go.upperPhase j j st.mat)).1 i j * st.scal i|
          ≤ |(Go.elimPhase st.scal j (n - j) (Go.upperPhase j j st.mat)).1
               (Go.elimPhase st.scal j (n - j) (Go.upperPhase j j st.mat)).2.2 j
             * st.scal (Go.elimPhase st.scal j (n - j) (Go.upperPhase j j st.mat)).2.2|)
    ∧ (∀ i, j ≤ i → i < (Go.elimPhase st.scal j (n - j) (Go.upperPhase j j st.mat)).2.2 →
        |(Go.elimPhase st.scal j (n - j) (Go.upperPhase j j st.mat)).1 i j * st.scal i|
          < |(Go.elimPhase st.scal j (n - j) (Go.upperPhase j j st.mat)).1
               (Go.elimPhase st.scal j (n - j) (Go.upperPhase j j st.mat)).2.2 j
             * st.scal (Go.elimPhase st.scal j (n - j) (Go.upperPhase j j st.mat)).2.2|)
    ∧ (st'.parity
        = if (Go.elimPhase st.scal j (n - j) (Go.upperPhase j j st.mat)).2.2 = j
          then st.parity else ! st.parity)
    ∧ ((Go.elimPhase st.scal j (n - j) (Go.upperPhase j j st.mat)).2.2 ≠ j →
        ∀ b, b < n → b ≠ j →
          st'.mat j b
              = (Go.elimPhase st.scal j (n - j) (Go.upperPhase j j st.mat)).1
                  (Go.elimPhase st.scal j (n - j) (Go.upperPhase j j st.mat)).2.2 b
          ∧ st'.mat (Go.elimPhase st.scal j (n - j) (Go.upperPhase j j st.mat)).2.2 b
              = (Go.elimPhase st.scal j (n - j) (Go.upperPhase j j st.mat)).1 j b)
    ∧ (st'.perm = Go.swapFn st.perm j (Go.elimPhase st.scal j (n - j) (Go.upperPhase j j st.mat)).2.2
        ∧ st'.scal = Go.swapFn st.scal j (Go.elimPhase st.scal j (n - j) (Go.upperPhase j j st.mat)).2.2)
    ∧ (∀ s stj, Go.computeScaling A0 n n = .ok s →
        Go.croutLoop n j ⟨A0, s, fun k => k, true⟩ = .ok stj →
        ∀ i, i < n → stj.scal i = 1 / Go.rowMaxAbs A0 (stj.perm i) n) := by
  obtain ⟨hpiv, hst'⟩ := Go.columnStep_ok n j st st' hstep
  have hpivot := Go.elimPhase_pivot st.scal j (Go.upperPhase j j st.mat) (n - j)
  obtain ⟨hpv0, hprlb, hprd, hpvz, hle, hne⟩ := hpivot
  have hprub : (Go.elimPhase st.scal j (n - j) (Go.upperPhase j j st.mat)).2.2 < n := by
    rcases hprd with h | h
    · omega
    · omega
  have hcnt : n - j ≠ 0 := by omega
  refine ⟨⟨hprlb, hprub⟩, ?_, ?_, ?_, ?_, ?_, ?_⟩
  · -- every candidate is at most the selected pivot's scaled value
    intro i hji hin
    by_cases hpv : (Go.elimPhase st.scal j (n - j) (Go.upperPhase j j st.mat)).2.1 = 0
    · have h1 := hle (i - j) (by omega)
      rw [show j + (i - j) = i by omega] at h1
      rw [hpv] at h1
      have h2 : |(Go.elimPhase st.scal j (n - j) (Go.upperPhase j j st.mat)).1 i j
          * st.scal i| = 0 := le_antisymm h1 (abs_nonneg _)
      rw [h2]
      exact abs_nonneg _
    · obtain ⟨heq, -, -⟩ := hne hpv
      rw [← heq]
      have h1 := hle (i - j) (by omega)
      rw [show j + (i - j) = i by omega] at h1
      exact h1
  · -- everything strictly before the pivot row is strictly smaller
    intro i hji hip
    by_cases hpv : (Go.elimPhase st.scal j (n - j) (Go.upperPhase j j st.mat)).2.1 = 0
    · have := hpvz hpv
      omega
    · obtain ⟨heq, -, hstrict⟩ := hne hpv
      rw [← heq]
      exact hstrict i hji hip
  · -- parity toggles exactly on a swap
    rw [hst', Go.postDivide_eq n j _ hj, Go.postSwap_eq]
  · -- the two full rows are physically exchanged
    intro hprj b hbn hbj
    rw [hst', Go.postDivide_eq n j _ hj, Go.postSwap_eq]
    constructor
    · show Go.divideBelow (Go.swapRows _ n _ j) n j j b = _
      rw [show Go.divideBelow (Go.swapRows
          (Go.elimPhase st.scal j (n - j) (Go.upperPhase j j st.mat)).1 n
          (Go.elimPhase st.scal j (n - j) (Go.upperPhase j j st.mat)).2.2 j) n j j b
          = Go.swapRows (Go.elimPhase st.scal j (n - j) (Go.upperPhase j j st.mat)).1 n
            (Go.elimPhase st.scal j (n - j) (Go.upperPhase j j st.mat)).2.2 j j b from
        by show (if b = j ∧ _ ∧ _ then _ else _) = _
           exact if_neg (by rintro ⟨rfl, -, -⟩; exact hbj rfl)]
      exact Go.swapRows_snd _ n _ j b hbn
    · show Go.divideBelow (Go.swapRows _ n _ j) n j _ b = _
      rw [show Go.divideBelow (Go.swapRows
          (Go.elimPhase st.scal j (n - j) (Go.upperPhase j j st.mat)).1 n
          (Go.elimPhase st.scal j (n - j) (Go.upperPhase j j st.mat)).2.2 j) n j
            (Go.elimPhase st.scal j (n - j) (Go.upperPhase j j st.mat)).2.2 b
          = Go.swapRows (Go.elimPhase st.scal j (n - j) (Go.upperPhase j j st.mat)).1 n
            (Go.elimPhase st.scal j (n - j) (Go.upperPhase j j st.mat)).2.2 j
            (Go.elimPhase st.scal j (n - j) (Go.upperPhase j j st.mat)).2.2 b from
        by show (if b = j ∧ _ ∧ _ then _ else _) = _
           exact if_neg (by rintro ⟨rfl, -, -⟩; exact hbj rfl)]
      exact Go.swapRows_fst _ n _ j b hbn
  · -- perm and scaling entries swap along
    rw [hst', Go.postDivide_eq n j _ hj, Go.postSwap_eq]
    exact ⟨rfl, rfl⟩
  · -- the scaling factors follow the original rows through a run
    intro s stj hs hcr i hin
    exact (Go.inv_croutLoop A0 n _ (Go.inv_init A0 n s hs) j (by omega) stj hcr).scalInv i hin

/-- Witness for C4 at the 1×1 column step on `testMat`. -/
theorem C4_scaled_partial_pivoting_witness :
    0 ≤ (Go.elimPhase (fun _ => 1) 0 (1 - 0)
        (Go.upperPhase 0 0 Go.testMat)).2.2
    ∧ (Go.elimPhase (fun _ => 1) 0 (1 - 0)
        (Go.upperPhase 0 0 Go.testMat)).2.2 < 1 :=
  (C4_scaled_partial_pivoting Go.testMat 1 0
    (⟨Go.testMat, fun _ => 1, fun k => k, true⟩ : Go.LUSt)
    (⟨Go.testMat, fun _ => 1, fun k => k, true⟩ : Go.LUSt)
    (by omega)
    (Go.columnStep_one _ (by norm_num [Go.testMat]))).1

/-- C3: `LUDecomp` signals an error exactly when some input row is entirely
zero (the null-row error, raised by the scaling pass before any elimination)
or some column's selected pivot value is exactly zero after elimination (the
singularity error); there is no tolerance-based test, so a run succeeds
precisely when no row is null and every selected pivot is nonzero. -/
theorem C3_error_iff (A0 : Go.Mat) (n : ℕ) :
    (Go.LUDecomp A0 n = .error .nullRow ↔ ∃ i, i < n ∧ ∀ b, b < n → A0 i b = 0)
    ∧ (Go.LUDecomp A0 n = .error .singular ↔
        (¬ ∃ i, i < n ∧ ∀ b, b < n → A0 i b = 0)
        ∧ ∃ j, j < n ∧ Go.selectedPivot A0 n j = some 0)
    ∧ ((∃ st, Go.LUDecomp A0 n = .ok st) ↔
        (¬ ∃ i, i < n ∧ ∀ b, b < n → A0 i b = 0)
        ∧ ∀ j, j < n → Go.selectedPivot A0 n j ≠ some 0) := by
  have hnull : Go.LUDecomp A0 n = .error .nullRow
      ↔ ∃ i, i < n ∧ ∀ b, b < n → A0 i b = 0 := by
    constructor
    · intro h
      rw [Go.LUDecomp] at h
      cases hs : Go.computeScaling A0 n n with
      | error e =>
        rw [hs] at h
        simp only [Bind.bind, Except.bind] at h
        cases h
        obtain ⟨-, i, hi, hz⟩ := Go.computeScaling_error A0 n n _ hs
        exact ⟨i, hi, (Go.rowMaxAbs_eq_zero_iff A0 i n).mp hz⟩
      | ok s =>
        rw [hs] at h
        simp only [Bind.bind, Except.bind] at h
        cases Go.croutLoop_error_singular n _ n _ h
    · rintro ⟨i, hi, hz⟩
      have hmx : Go.rowMaxAbs A0 i n = 0 := (Go.rowMaxAbs_eq_zero_iff A0 i n).mpr hz
      rw [Go.LUDecomp]
      cases hs : Go.computeScaling A0 n n with
      | error e =>
        obtain ⟨he, -⟩ := Go.computeScaling_error A0 n n _ hs
        subst he
        rfl
      | ok s =>
        exact absurd hmx (Go.computeScaling_ok_val A0 n n s hs i hi).2
  have hsing : Go.LUDecomp A0 n = .error .singular ↔
      (¬ ∃ i, i < n ∧ ∀ b, b < n → A0 i b = 0)
      ∧ ∃ j, j < n ∧ Go.selectedPivot A0 n j = some 0 := by
    constructor
    · intro h
      have hnot : ¬ ∃ i, i < n ∧ ∀ b, b < n → A0 i b = 0 := by
        intro hex
        rw [hnull.mpr hex] at h
        cases h
      refine ⟨hnot, ?_⟩
      rw [Go.LUDecomp] at h
      cases hs : Go.computeScaling A0 n n with
      | error e =>
        rw [hs] at h
        simp only [Bind.bind, Except.bind] at h
        cases h
        obtain ⟨he, -⟩ := Go.computeScaling_error A0 n n _ hs
        cases he
      | ok s =>
        rw [hs] at h
        simp only [Bind.bind, Except.bind] at h
        obtain ⟨j, stj, hjn, hok, herr⟩ := Go.croutLoop_first_failure n _ n _ h
        obtain ⟨-, hz⟩ := Go.columnStep_error n j stj _ herr
        refine ⟨j, hjn, ?_⟩
        rw [Go.selectedPivot_eq_of A0 n j s stj hs hok, hz]
    · rintro ⟨hnot, j, hjn, hsel⟩
      obtain ⟨s, stj, hs, hcr, hz⟩ := Go.selectedPivot_some A0 n j 0 hsel
      have herr := Go.columnStep_error_of n j stj hz
      have h1 : Go.croutLoop n (j + 1) ⟨A0, s, fun k => k, true⟩
          = .error .singular := by
        rw [Go.croutLoop_succ, hcr]
        exact herr
      have h2 := Go.croutLoop_error_mono n _ (j + 1) _ h1 n (by omega)
      rw [Go.LUDecomp, hs]
      simp only [Bind.bind, Except.bind]
      exact h2
  refine ⟨hnull, hsing, ?_⟩
  constructor
  · rintro ⟨st, hok⟩
    have hnr : ¬ ∃ i, i < n ∧ ∀ b, b < n → A0 i b = 0 := by
      intro hex
      rw [hnull.mpr hex] at hok
      cases hok
    refine ⟨hnr, ?_⟩
    intro j hjn hsel
    have := hsing.mpr ⟨hnr, j, hjn, hsel⟩
    rw [this] at hok
    cases hok
  · rintro ⟨hnot, hpiv⟩
    cases hd : Go.LUDecomp A0 n with
    | ok st => exact ⟨st, rfl⟩
    | error e =>
      cases e with
      | nullRow => exact absurd (hnull.mp hd) hnot
      | singular =>
        obtain ⟨-, j, hjn, hsel⟩ := hsing.mp hd
        exact absurd hsel (hpiv j hjn)

namespace Go

/-- The unit-lower-triangular factor `L` of a decomposed state. -/
def lowerOf (n : ℕ) (st : LUSt) : Matrix (Fin n) (Fin n) ℚ :=
  Matrix.of fun i k => lval st i k

/-- The upper factor `U` (diagonal included) of a decomposed state. -/
def upperOf (n : ℕ) (st : LUSt) : Matrix (Fin n) (Fin n) ℚ :=
  Matrix.of fun k c => uval st k c

/-- The input matrix, as a `Fin n` matrix. -/
def matOf (A : Mat) (n : ℕ) : Matrix (Fin n) (Fin n) ℚ :=
  Matrix.of fun i c => A i c

/-- The row-permuted input `P·A`. -/
def permutedOf (A : Mat) (n : ℕ) (st : LUSt) : Matrix (Fin n) (Fin n) ℚ :=
  Matrix.of fun i c => A (st.perm i) c

lemma mul_lower_upper (n : ℕ) (st : LUSt) (i c : Fin n) :
    (lowerOf n st * upperOf n st) i c
      = ∑ k ∈ Finset.range n, lval st i k * uval st k c := by
  rw [Matrix.mul_apply]
  exact Fin.sum_univ_eq_sum_range (fun k => lval st i k * uval st k c) n

end Go

/-- C2: a successful `LUDecomp` leaves the matrix holding a unit-lower
factor `L` (strict lower triangle, unit diagonal) and an upper factor `U`
(upper triangle with diagonal) with `L·U = P·A`, where `P` is the recorded
row permutation; and `det A = ±det U` with the sign given by the parity flag
(`+` when `parity` is `true`, i.e. an even number of row swaps). -/
theorem C2_lu_factorization (A0 : Go.Mat) (n : ℕ) (st : Go.LUSt)
    (h : Go.LUDecomp A0 n = .ok st) :
    Go.lowerOf n st * Go.upperOf n st = Go.permutedOf A0 n st
    ∧ Matrix.det (Go.matOf A0 n)
        = (if st.parity then 1 else -1) * Matrix.det (Go.upperOf n st) := by
  have hinv := Go.inv_LUDecomp A0 n st h
  have hprod : Go.lowerOf n st * Go.upperOf n st = Go.permutedOf A0 n st := by
    ext i c
    rw [Go.mul_lower_upper n st i c]
    exact hinv.eqn i c i.isLt c.isLt
  refine ⟨hprod, ?_⟩
  obtain ⟨σ, hσ, hσs⟩ := hinv.sign
  have hPA : Go.permutedOf A0 n st = fun i => Go.matOf A0 n (σ i) := by
    funext i c
    show A0 (st.perm i) c = A0 (σ i) c
    rw [hσ i]
  have hdetPA : (Go.permutedOf A0 n st).det
      = Equiv.Perm.sign σ * (Go.matOf A0 n).det := by
    rw [hPA]
    exact Matrix.det_permute σ (Go.matOf A0 n)
  have hdetL : (Go.lowerOf n st).det = 1 := by
    have htri : ∀ i j : Fin n, i < j → Go.lowerOf n st i j = 0 := by
      intro i j hij
      show Go.lval st i j = 0
      rw [Go.lval, if_neg (by omega : ¬ (j : ℕ) < (i : ℕ)),
        if_neg (by omega : ¬ (j : ℕ) = (i : ℕ))]
    rw [Matrix.det_of_lowerTriangular (Go.lowerOf n st)
      (fun i j hij => htri i j (OrderDual.toDual_lt_toDual.mp hij))]
    have hone : ∀ i : Fin n, Go.lowerOf n st i i = 1 := by
      intro i
      show Go.lval st i i = 1
      rw [Go.lval, if_neg (by omega : ¬ (i : ℕ) < (i : ℕ)), if_pos rfl]
    rw [Finset.prod_congr rfl (fun i _ => hone i)]
    exact Finset.prod_const_one
  have hdetU : (Go.permutedOf A0 n st).det = (Go.upperOf n st).det := by
    rw [← hprod, Matrix.det_mul, hdetL, one_mul]
  have hsign : ((Equiv.Perm.sign σ : ℤˣ) : ℚ) = (if st.parity then 1 else -1) := by
    rw [hσs]
    cases st.parity <;> simp
  rw [hdetPA, hsign] at hdetU
  rcases Bool.eq_false_or_eq_true st.parity with hp | hp <;>
    rw [hp] at hdetU ⊢ <;> norm_num at hdetU ⊢ <;> linarith

/-- Witness for C2 at the concrete 1×1 decomposition of `testMat`. -/
theorem C2_lu_factorization_witness :
    Go.lowerOf 1 (⟨Go.testMat, Go.updVec (fun _ => 0) 0 (1 / Go.rowMaxAbs Go.testMat 0 1),
        fun k => k, true⟩ : Go.LUSt)
      * Go.upperOf 1 (⟨Go.testMat, Go.updVec (fun _ => 0) 0 (1 / Go.rowMaxAbs Go.testMat 0 1),
        fun k => k, true⟩ : Go.LUSt)
      = Go.permutedOf Go.testMat 1 (⟨Go.testMat,
          Go.updVec (fun _ => 0) 0 (1 / Go.rowMaxAbs Go.testMat 0 1),
          fun k => k, true⟩ : Go.LUSt) :=
  (C2_lu_factorization Go.testMat 1 _
    (Go.LUDecomp_one Go.testMat (by norm_num [Go.testMat]))).1

namespace Go

/-- If the first `j+1` columns of a square matrix lie in the span of `j`
vectors, the matrix is singular. -/
lemma det_eq_zero_of_cols_in_span (n j : ℕ) (hjn : j < n)
    (M : Matrix (Fin n) (Fin n) ℚ) (f : Fin j → (Fin n → ℚ))
    (hcols : ∀ c : Fin n, (c : ℕ) ≤ j →
      (fun i => M i c) ∈ Submodule.span ℚ (Set.range f)) :
    M.det = 0 := by
  have hle : j + 1 ≤ n := hjn
  set g : Fin (j + 1) → (Fin n → ℚ) :=
    fun c => fun i => M i (Fin.castLE hle c) with hgdef
  have hmem : ∀ c : Fin (j + 1), g c ∈ Submodule.span ℚ (Set.range f) := by
    intro c
    exact hcols (Fin.castLE hle c) (by
      have := c.isLt
      simp [Fin.castLE]
      omega)
  have hnotli : ¬ LinearIndependent ℚ g := by
    intro hli
    have h1 : Fintype.card (Fin (j + 1)) ≤ (Set.range g).finrank ℚ :=
      linearIndependent_iff_card_le_finrank_span.mp hli
    have h2 : Submodule.span ℚ (Set.range g) ≤ Submodule.span ℚ (Set.range f) :=
      Submodule.span_le.mpr (by rintro x ⟨c, rfl⟩; exact hmem c)
    have h3 : (Set.range g).finrank ℚ ≤ (Set.range f).finrank ℚ :=
      Submodule.finrank_mono h2
    have h4 : (Set.range f).finrank ℚ ≤ Fintype.card (Fin j) :=
      finrank_range_le_card f
    rw [Fintype.card_fin] at h1 h4
    omega
  obtain ⟨μ, hsum, c0, hc0⟩ := Fintype.not_linearIndependent_iff.mp hnotli
  have hc0n : (c0 : ℕ) < n := by
    have := c0.isLt
    omega
  set v : Fin n → ℚ := fun c => if h : (c : ℕ) < j + 1 then μ ⟨c, h⟩ else 0 with hvdef
  have hvne : v ≠ 0 := by
    intro h0
    apply hc0
    have h1 : v (Fin.castLE hle c0) = 0 := by rw [h0]; rfl
    have h2 : (if h : ((c0 : ℕ)) < j + 1 then μ ⟨(c0 : ℕ), h⟩ else 0) = 0 := h1
    rw [dif_pos c0.isLt, Fin.eta] at h2
    exact h2
  have hmv : M.mulVec v = 0 := by
    funext i
    show ∑ c, M i c * v c = 0
    have houtside : ∀ c : Fin n, c ∈ Finset.univ →
        c ∉ (Finset.univ : Finset (Fin (j + 1))).map (Fin.castLEEmb hle) →
        M i c * v c = 0 := by
      intro c _ hc
      have hcge : ¬ (c : ℕ) < j + 1 := by
        intro hlt
        apply hc
        rw [Finset.mem_map]
        exact ⟨⟨(c : ℕ), hlt⟩, Finset.mem_univ _, by
          simp [Fin.castLEEmb, Fin.castLE]⟩
      rw [hvdef]
      simp only
      rw [dif_neg hcge, mul_zero]
    have hsub : (Finset.univ : Finset (Fin (j + 1))).map (Fin.castLEEmb hle)
        ⊆ Finset.univ := Finset.subset_univ _
    rw [← Finset.sum_subset hsub houtside, Finset.sum_map]
    have hterm : ∀ c : Fin (j + 1),
        M i (Fin.castLEEmb hle c) * v (Fin.castLEEmb hle c) = μ c * g c i := by
      intro c
      have hv : v (Fin.castLEEmb hle c) = μ c := by
        show (if h : ((c : ℕ)) < j + 1 then μ ⟨(c : ℕ), h⟩ else 0) = μ c
        rw [dif_pos c.isLt, Fin.eta]
      rw [hv, mul_comm]
      rfl
    rw [Finset.sum_congr rfl (fun c _ => hterm c)]
    have := congrFun hsum i
    rw [Finset.sum_apply] at this
    simp only [Pi.smul_apply, smul_eq_mul, Pi.zero_apply] at this
    exact this
  exact Matrix.exists_mulVec_eq_zero_iff.mp ⟨v, hvne, hmv⟩

end Go

namespace Go

/-- When the Crout loop hits an exactly-zero selected pivot, the input matrix
is singular: the first `j+1` permuted columns lie in the span of the `j`
computed multiplier columns. -/
lemma det_zero_of_singular (A0 : Mat) (n : ℕ)
    (h : LUDecomp A0 n = .error .singular) :
    Matrix.det (matOf A0 n) = 0 := by
  rw [LUDecomp] at h
  cases hs : computeScaling A0 n n with
  | error e =>
    rw [hs] at h
    simp only [Bind.bind, Except.bind] at h
    cases h
    obtain ⟨he, -⟩ := computeScaling_error A0 n n _ hs
    cases he
  | ok s =>
    rw [hs] at h
    simp only [Bind.bind, Except.bind] at h
    obtain ⟨j, stj, hjn, hok, herr⟩ := croutLoop_first_failure n _ n _ h
    obtain ⟨-, hz⟩ := columnStep_error n j stj _ herr
    have hinv : Inv A0 n j stj :=
      inv_croutLoop A0 n _ (inv_init A0 n s hs) j (by omega) stj hok
    have hrm : ∀ r, r < n → rowMaxAbs A0 r n ≠ 0 := fun r hr =>
      (computeScaling_ok_val A0 n n s hs r hr).2
    have hscal_ne : ∀ i, i < n → stj.scal i ≠ 0 := by
      intro i hi
      rw [hinv.scalInv i hi]
      exact one_div_ne_zero (hrm _ (hinv.permBound i hi))
    -- all eliminated values of column j vanish
    have hallzero : ∀ i, j ≤ i → i < n →
        (elimPhase stj.scal j (n - j) (upperPhase j j stj.mat)).1 i j = 0 := by
      intro i hji hin
      by_contra hne0
      obtain ⟨hpv0, -, -, -, hle, hne⟩ :=
        elimPhase_pivot stj.scal j (upperPhase j j stj.mat) (n - j)
      have h1 := hle (i - j) (by omega)
      rw [show j + (i - j) = i by omega] at h1
      have h2 : 0 < |(elimPhase stj.scal j (n - j) (upperPhase j j stj.mat)).1 i j
          * stj.scal i| :=
        abs_pos.mpr (mul_ne_zero hne0 (hscal_ne i hin))
      have hpv : (elimPhase stj.scal j (n - j) (upperPhase j j stj.mat)).2.1 ≠ 0 := by
        intro hpz
        rw [hpz] at h1
        exact absurd (lt_of_lt_of_le h2 h1) (lt_irrefl 0)
      obtain ⟨heq, -, -⟩ := hne hpv
      rw [hz, zero_mul, abs_zero] at heq
      exact hpv heq
    -- value facts for the two phases
    have hm1col : ∀ i, i < j →
        upperPhase j j stj.mat i j
          = stj.mat i j - ∑ k ∈ Finset.range i,
              stj.mat i k * upperPhase j j stj.mat k j :=
      fun i hij => upperPhase_val j stj.mat i hij
    have hm1frame : ∀ a b, j ≤ a ∨ b ≠ j →
        upperPhase j j stj.mat a b = stj.mat a b :=
      fun a b hab => upperPhase_frame j j stj.mat a b hab
    have hm2col : ∀ i, j ≤ i → i < n →
        (elimPhase stj.scal j (n - j) (upperPhase j j stj.mat)).1 i j
          = stj.mat i j - ∑ k ∈ Finset.range j,
              stj.mat i k * upperPhase j j stj.mat k j := by
      intro i hji hin
      have hieq : i = j + (i - j) := by omega
      have ht : i - j < n - j := by omega
      rw [hieq, elimPhase_val stj.scal j (upperPhase j j stj.mat) (i - j) (n - j) ht,
        ← hieq]
      congr 1
      · exact hm1frame i j (Or.inl hji)
      · apply Finset.sum_congr rfl
        intro k hk
        rw [Finset.mem_range] at hk
        rw [hm1frame i k (Or.inr (by omega))]
    -- every permuted column c ≤ j is a combination of the multiplier columns
    have hcols : ∀ c : Fin n, (c : ℕ) ≤ j →
        (fun i => permutedOf A0 n stj i c)
          ∈ Submodule.span ℚ
              (Set.range (fun k : Fin j => fun i : Fin n => lval stj i k)) := by
      intro c hcj
      rw [mem_span_range_iff_exists_fun ℚ]
      rcases lt_or_eq_of_le hcj with hclt | hceq
      · -- c < j : coefficients are the stored upper entries
        refine ⟨fun k => uval stj k c, ?_⟩
        funext i
        rw [Finset.sum_apply]
        simp only [Pi.smul_apply, smul_eq_mul]
        have hconv : ∑ k : Fin j, uval stj k c * lval stj i k
            = ∑ k ∈ Finset.range j, uval stj k c * lval stj i k :=
          Fin.sum_univ_eq_sum_range (fun k => uval stj k c * lval stj i k) j
        rw [hconv]
        have hrestr : ∑ k ∈ Finset.range j, uval stj k c * lval stj i k
            = ∑ k ∈ Finset.range n, lval stj i k * uval stj k c := by
          rw [Finset.sum_congr rfl (fun k _ => mul_comm _ _)]
          apply Finset.sum_subset (Finset.range_subset.mpr (by omega))
          intro k _ hk
          rw [Finset.mem_range] at hk
          push_neg at hk
          rw [uval, if_neg (by omega), mul_zero]
        rw [hrestr, hinv.eqn i c i.isLt hclt]
        rfl
      · -- c = j : coefficients are the freshly computed upper-phase values
        refine ⟨fun k => upperPhase j j stj.mat k j, ?_⟩
        funext i
        rw [Finset.sum_apply]
        simp only [Pi.smul_apply, smul_eq_mul]
        have hconv : ∑ k : Fin j, upperPhase j j stj.mat k j * lval stj i k
            = ∑ k ∈ Finset.range j, upperPhase j j stj.mat k j * lval stj i k :=
          Fin.sum_univ_eq_sum_range
            (fun k => upperPhase j j stj.mat k j * lval stj i k) j
        rw [hconv]
        show _ = permutedOf A0 n stj i c
        have hcj' : (c : ℕ) = j := hceq
        rcases lt_or_le (i : ℕ) j with hij | hij
        · -- rows above the pivot: the phase-1 recurrence
          have htrunc : ∑ k ∈ Finset.range j,
              upperPhase j j stj.mat k j * lval stj i k
              = ∑ k ∈ Finset.range ((i : ℕ) + 1),
                  upperPhase j j stj.mat k j * lval stj i k := by
            symm
            apply Finset.sum_subset (Finset.range_subset.mpr (by omega))
            intro k _ hk
            rw [Finset.mem_range] at hk
            push_neg at hk
            rw [lval, if_neg (by omega), if_neg (by omega), mul_zero]
          rw [htrunc, Finset.sum_range_succ]
          have hdiag : lval stj i (i : ℕ) = 1 := by
            rw [lval, if_neg (by omega), if_pos rfl]
          rw [hdiag, mul_one, hm1col i hij]
          have hterm : ∀ k, k < (i : ℕ) →
              upperPhase j j stj.mat k j * lval stj i k
                = stj.mat i k * upperPhase j j stj.mat k j := by
            intro k hk
            rw [lval, if_pos hk, mul_comm]
          rw [Finset.sum_congr rfl (fun k hk =>
            hterm k (Finset.mem_range.mp hk))]
          have huntouched : stj.mat i j = A0 (stj.perm i) j :=
            hinv.untouched i j i.isLt le_rfl hjn
          show _ = A0 (stj.perm i) (c : ℕ)
          rw [hcj', ← huntouched]
          ring
        · -- rows at or below the pivot: the eliminated value is zero
          have hz2 := hallzero i hij i.isLt
          rw [hm2col i hij i.isLt] at hz2
          have hterm : ∀ k, k < j →
              upperPhase j j stj.mat k j * lval stj i k
                = stj.mat i k * upperPhase j j stj.mat k j := by
            intro k hk
            rw [lval, if_pos (by omega), mul_comm]
          rw [Finset.sum_congr rfl (fun k hk =>
            hterm k (Finset.mem_range.mp hk))]
          have huntouched : stj.mat i j = A0 (stj.perm i) j :=
            hinv.untouched i j i.isLt le_rfl hjn
          show _ = A0 (stj.perm i) (c : ℕ)
          rw [hcj', ← huntouched]
          linarith [hz2]
    have hdetPA : Matrix.det (permutedOf A0 n stj) = 0 :=
      det_eq_zero_of_cols_in_span n j hjn (permutedOf A0 n stj)
        (fun k => fun i : Fin n => lval stj i k) hcols
    -- transfer through the permutation sign
    obtain ⟨σ, hσ, hσs⟩ := hinv.sign
    have hPA : permutedOf A0 n stj = fun i => matOf A0 n (σ i) := by
      funext i c
      show A0 (stj.perm i) c = A0 (σ i) c
      rw [hσ i]
    rw [hPA] at hdetPA
    have h2 : ((Equiv.Perm.sign σ : ℤˣ) : ℚ) * (matOf A0 n).det = 0 :=
      (Matrix.det_permute σ (matOf A0 n)).symm.trans hdetPA
    have hsign : ((Equiv.Perm.sign σ : ℤˣ) : ℚ) ≠ 0 := by
      rw [hσs]
      rcases Bool.eq_false_or_eq_true stj.parity with hp | hp <;> rw [hp] <;> norm_num
    exact (mul_eq_zero.mp h2).resolve_left hsign

end Go

namespace Go

/-- The permutation loop of `LUsolveSystem` gathers the right-hand side
through the permutation: slot `i` receives the original `b[perm i]`
(each scratch slot of `vec_old` is read before any overwrite, thanks to
injectivity of `perm`). -/
lemma permuteLoop_gather (perm : Nat → Nat) (b : Vec) (n : ℕ)
    (hinj : ∀ i i', i < n → i' < n → perm i = perm i' → i = i') :
    ∀ m, m ≤ n →
      (∀ a, m ≤ a → (permuteLoop perm m (b, b)).1 a = b a)
      ∧ (∀ a, a < m → (permuteLoop perm m (b, b)).1 a = b (perm a))
      ∧ (∀ s, (∀ a, a < m → perm a ≠ s) → (permuteLoop perm m (b, b)).2 s = b s) := by
  intro m
  induction m with
  | zero => intro _; exact ⟨fun a _ => rfl, fun a ha => absurd ha (by omega), fun s _ => rfl⟩
  | succ m ih =>
    intro hm
    obtain ⟨ih1, ih2, ih3⟩ := ih (by omega)
    have hread : (permuteLoop perm m (b, b)).2 (perm m) = b (perm m) := by
      apply ih3
      intro a ha hc
      have := hinj a m (by omega) (by omega) hc
      omega
    refine ⟨?_, ?_, ?_⟩
    · intro a ha
      show updVec (permuteLoop perm m (b, b)).1 m _ a = b a
      rw [updVec_other _ _ _ _ (by omega)]
      exact ih1 a (by omega)
    · intro a ha
      show updVec (permuteLoop perm m (b, b)).1 m ((permuteLoop perm m (b, b)).2 (perm m)) a
          = b (perm a)
      rcases Nat.lt_succ_iff_lt_or_eq.mp ha with ha' | ha'
      · rw [updVec_other _ _ _ _ (by omega)]
        exact ih2 a ha'
      · subst ha'
        rw [updVec_same]
        exact hread
    · intro s hs
      show updVec (permuteLoop perm m (b, b)).2 (perm m) ((permuteLoop perm m (b, b)).1 m) s
          = b s
      rw [updVec_other _ _ _ _ (fun hc => hs m (by omega) hc.symm)]
      exact ih3 s (fun a ha => hs a (by omega))

lemma forwardSubstitution_frame (A : Mat) :
    ∀ (cnt : ℕ) (x : Vec) (a : ℕ), cnt ≤ a → forwardSubstitution A cnt x a = x a := by
  intro cnt
  induction cnt with
  | zero => intro x a _; rfl
  | succ c ih =>
    intro x a ha
    show updVec (forwardSubstitution A c x) c _ a = x a
    rw [updVec_other _ _ _ _ (by omega)]
    exact ih x a (by omega)

lemma forwardSubstitution_stable (A : Mat) (x : Vec) (i : ℕ) :
    ∀ cnt, i < cnt →
      forwardSubstitution A cnt x i = forwardSubstitution A (i + 1) x i := by
  intro cnt
  induction cnt with
  | zero => intro h; exact absurd h (by omega)
  | succ c ih =>
    intro h
    rcases Nat.lt_succ_iff_lt_or_eq.mp h with h' | h'
    · show updVec (forwardSubstitution A c x) c _ i = _
      rw [updVec_other _ _ _ _ (by omega)]
      exact ih h'
    · subst h'; rfl

/-- The value computed by forward substitution at each solved row. -/
lemma forwardSubstitution_val (A : Mat) (x : Vec) (cnt i : ℕ) (h : i < cnt) :
    forwardSubstitution A cnt x i
      = x i - ∑ j ∈ Finset.range i, A i j * forwardSubstitution A cnt x j := by
  rw [forwardSubstitution_stable A x i cnt h]
  show updVec (forwardSubstitution A i x) i _ i = _
  rw [updVec_same]
  congr 1
  · exact forwardSubstitution_frame A i x i le_rfl
  · apply Finset.sum_congr rfl
    intro j hj
    rw [Finset.mem_range] at hj
    congr 1
    rw [forwardSubstitution_stable A x j i hj, ← forwardSubstitution_stable A x j cnt (by omega)]

lemma bwdLoop_frame (A : Mat) (n : ℕ) :
    ∀ (cnt : ℕ) (x : Vec) (a : ℕ), cnt < a → bwdLoop A n cnt x a = x a := by
  intro cnt
  induction cnt with
  | zero =>
    intro x a ha
    show updVec x 0 _ a = x a
    rw [updVec_other _ _ _ _ (by omega)]
  | succ c ih =>
    intro x a ha
    show bwdLoop A n c (bwdRow A n (c + 1) x) a = x a
    rw [ih _ a (by omega)]
    show updVec x (c + 1) _ a = x a
    rw [updVec_other _ _ _ _ (by omega)]

/-- The value computed by the backward-substitution loop at each solved row.
Rows above `cnt` are untouched, so the equation is closed in the final
vector. -/
lemma bwdLoop_char (A : Mat) (n : ℕ) :
    ∀ (cnt : ℕ) (x : Vec) (i : ℕ), i ≤ cnt →
      bwdLoop A n cnt x i
        = (x i - ∑ j ∈ Finset.Ico (i + 1) n, A i j * bwdLoop A n cnt x j) / A i i := by
  intro cnt
  induction cnt with
  | zero =>
    intro x i hi
    rw [Nat.le_zero.mp hi]
    have hsum : ∑ j ∈ Finset.Ico (0 + 1) n, A 0 j * bwdLoop A n 0 x j
        = ∑ j ∈ Finset.Ico (0 + 1) n, A 0 j * x j := by
      apply Finset.sum_congr rfl
      intro j hj
      rw [Finset.mem_Ico] at hj
      have h1 : bwdLoop A n 0 x j = x j := by
        show updVec x 0 _ j = x j
        rw [updVec_other _ _ _ _ (by omega)]
      rw [h1]
    show updVec x 0 ((x 0 - ∑ j ∈ Finset.Ico (0 + 1) n, A 0 j * x j) / A 0 0) 0 = _
    rw [updVec_same, hsum]
  | succ c ih =>
    intro x i hi
    rcases Nat.lt_succ_iff_lt_or_eq.mp (Nat.lt_succ_of_le hi) with hi' | hi'
    · show bwdLoop A n c (bwdRow A n (c + 1) x) i = _
      rw [ih (bwdRow A n (c + 1) x) i (by omega)]
      congr 2
      show updVec x (c + 1) _ i = x i
      rw [updVec_other _ _ _ _ (by omega)]
    · subst hi'
      have hsum : ∑ j ∈ Finset.Ico (c + 1 + 1) n, A (c + 1) j * bwdLoop A n (c + 1) x j
          = ∑ j ∈ Finset.Ico (c + 1 + 1) n, A (c + 1) j * x j := by
        apply Finset.sum_congr rfl
        intro j hj
        rw [Finset.mem_Ico] at hj
        have h1 : bwdLoop A n (c + 1) x j = x j := by
          show bwdLoop A n c (bwdRow A n (c + 1) x) j = x j
          rw [bwdLoop_frame A n c _ j (by omega)]
          show updVec x (c + 1) _ j = x j
          rw [updVec_other _ _ _ _ (by omega)]
        rw [h1]
      rw [hsum]
      show bwdLoop A n c (bwdRow A n (c + 1) x) (c + 1) = _
      rw [bwdLoop_frame A n c _ (c + 1) (by omega)]
      show updVec x (c + 1) _ (c + 1) = _
      rw [updVec_same]

/-- The defining equation of `backwardSubstitution` at every row `i < n`. -/
lemma backwardSubstitution_char (A : Mat) (n : ℕ) (hn : 1 ≤ n) (x : Vec) :
    ∀ i, i < n →
      backwardSubstitution A n x i
        = (x i - ∑ j ∈ Finset.Ico (i + 1) n,
            A i j * backwardSubstitution A n x j) / A i i := by
  intro i hin
  rw [backwardSubstitution]
  by_cases h2 : 2 ≤ n
  · rw [if_pos h2]
    rcases Nat.lt_or_ge i (n - 1) with hi | hi
    · rw [bwdLoop_char A n (n - 2) _ i (by omega)]
      congr 2
      rw [updVec_other _ _ _ _ (by omega)]
    · have hieq : i = n - 1 := by omega
      subst hieq
      rw [bwdLoop_frame A n (n - 2) _ (n - 1) (by omega), updVec_same]
      rw [Finset.Ico_eq_empty (by omega), Finset.sum_empty, sub_zero]
  · rw [if_neg h2]
    have hn1 : n = 1 := by omega
    subst hn1
    have hi0 : i = 0 := by omega
    subst hi0
    rw [updVec_same]
    rw [Finset.Ico_eq_empty (by omega), Finset.sum_empty, sub_zero]

end Go

namespace Go

/-- A null-row failure means the input matrix has an all-zero row, hence a
zero determinant. -/
lemma det_zero_of_nullRow (A0 : Mat) (n : ℕ)
    (h : LUDecomp A0 n = .error .nullRow) :
    Matrix.det (matOf A0 n) = 0 := by
  rw [LUDecomp] at h
  cases hs : computeScaling A0 n n with
  | error e =>
    obtain ⟨-, i, hi, hz⟩ := computeScaling_error A0 n n e hs
    have hrow := (rowMaxAbs_eq_zero_iff A0 i n).mp hz
    exact Matrix.det_eq_zero_of_row_eq_zero ⟨i, hi⟩ (fun j => hrow j j.isLt)
  | ok s =>
    rw [hs] at h
    simp only [Bind.bind, Except.bind] at h
    cases croutLoop_error_singular n _ n _ h

/-- Row `i` of the unit-lower factor applied to a vector. -/
lemma sum_l_apply (st : LUSt) (n i : ℕ) (hin : i < n) (y : Vec) :
    ∑ k ∈ Finset.range n, lval st i k * y k
      = (∑ k ∈ Finset.range i, st.mat i k * y k) + y i := by
  have h1 : ∑ k ∈ Finset.range n, lval st i k * y k
      = ∑ k ∈ Finset.range (i + 1), lval st i k * y k := by
    symm
    apply Finset.sum_subset (Finset.range_subset.mpr hin)
    intro k _ hk
    rw [Finset.mem_range] at hk
    rw [lval, if_neg (by omega), if_neg (by omega), zero_mul]
  rw [h1, Finset.sum_range_succ]
  congr 1
  · apply Finset.sum_congr rfl
    intro k hk
    rw [Finset.mem_range] at hk
    rw [lval, if_pos hk]
  · rw [lval, if_neg (by omega), if_pos rfl, one_mul]

/-- Row `i` of the upper factor applied to a vector. -/
lemma sum_u_apply (st : LUSt) (n i : ℕ) (hin : i < n) (x : Vec) :
    ∑ k ∈ Finset.range n, uval st i k * x k
      = st.mat i i * x i + ∑ k ∈ Finset.Ico (i + 1) n, st.mat i k * x k := by
  have h1 : ∑ k ∈ Finset.range n, uval st i k * x k
      = ∑ k ∈ Finset.Ico i n, uval st i k * x k := by
    symm
    apply Finset.sum_subset
    · intro k hk
      rw [Finset.mem_Ico] at hk
      exact Finset.mem_range.mpr hk.2
    · intro k hk hk2
      rw [Finset.mem_range] at hk
      rw [Finset.mem_Ico] at hk2
      push_neg at hk2
      rw [uval, if_neg (fun hik => absurd hk (not_lt.mpr (hk2 hik))), zero_mul]
  rw [h1, Finset.sum_eq_sum_Ico_succ_bot hin]
  congr 1
  · rw [uval, if_pos le_rfl]
  · apply Finset.sum_congr rfl
    intro k hk
    rw [Finset.mem_Ico] at hk
    rw [uval, if_pos (by omega)]

/-- After forward substitution, the unit-lower factor applied to the new
vector reproduces the original right-hand side (`L·y = v`). -/
lemma fwd_solves (st : LUSt) (n : ℕ) (v : Vec) (i : ℕ) (hin : i < n) :
    ∑ k ∈ Finset.range n, lval st i k * forwardSubstitution st.mat n v k = v i := by
  rw [sum_l_apply st n i hin, forwardSubstitution_val st.mat v n i hin]
  ring

/-- After backward substitution, the upper factor applied to the new vector
reproduces its input (`U·x = y`), given nonzero diagonal entries. -/
lemma bwd_solves (st : LUSt) (n : ℕ) (hn : 1 ≤ n)
    (hdiag : ∀ c, c < n → st.mat c c ≠ 0) (y : Vec) (i : ℕ) (hin : i < n) :
    ∑ k ∈ Finset.range n, uval st i k * backwardSubstitution st.mat n y k = y i := by
  have hd := hdiag i hin
  have hkey : st.mat i i * ((y i
      - ∑ j ∈ Finset.Ico (i + 1) n, st.mat i j * backwardSubstitution st.mat n y j)
        / st.mat i i)
      = y i - ∑ j ∈ Finset.Ico (i + 1) n,
          st.mat i j * backwardSubstitution st.mat n y j := by
    rw [mul_comm]
    exact div_mul_cancel₀ _ hd
  rw [sum_u_apply st n i hin, backwardSubstitution_char st.mat n hn y i hin, hkey]
  ring

end Go

/-- C1: for every nonsingular matrix `A` of size `n ≥ 1` and right-hand side
`b`, `LUsolveSystem` succeeds and returns a vector `x` with `A·x = b` exactly;
internally the right-hand side is first gathered through the permutation
(`new b[i] = old b[perm i]`), then forward substitution, then backward
substitution. -/
theorem C1_solve_system (A0 : Go.Mat) (n : ℕ) (b : Go.Vec) (hn : 1 ≤ n)
    (hdet : Matrix.det (Go.matOf A0 n) ≠ 0) :
    ∃ st x, Go.LUsolveSystem A0 n b = .ok (st, x)
      ∧ (∀ i, i < n → (Go.permuteLoop st.perm n (b, b)).1 i = b (st.perm i))
      ∧ x = Go.backwardSubstitution st.mat n
          (Go.forwardSubstitution st.mat n (Go.permuteLoop st.perm n (b, b)).1)
      ∧ (∀ r, r < n → ∑ c ∈ Finset.range n, A0 r c * x c = b r) := by
  cases hd : Go.LUDecomp A0 n with
  | error e =>
    exfalso
    cases e with
    | nullRow => exact hdet (Go.det_zero_of_nullRow A0 n hd)
    | singular => exact hdet (Go.det_zero_of_singular A0 n hd)
  | ok st =>
    have hinv := Go.inv_LUDecomp A0 n st hd
    set v1 := (Go.permuteLoop st.perm n (b, b)).1 with hv1
    set v2 := Go.forwardSubstitution st.mat n v1 with hv2
    set v3 := Go.backwardSubstitution st.mat n v2 with hv3
    refine ⟨st, v3, ?_, ?_, rfl, ?_⟩
    · rw [Go.LUsolveSystem, hd]
      rfl
    · intro i hi
      exact (Go.permuteLoop_gather st.perm b n hinv.permInj n le_rfl).2.1 i hi
    · intro r hr
      obtain ⟨σ, hσ, -⟩ := hinv.sign
      obtain ⟨i, hpi⟩ : ∃ i : Fin n, st.perm (i : ℕ) = r :=
        ⟨σ.symm ⟨r, hr⟩, by rw [hσ (σ.symm ⟨r, hr⟩), Equiv.apply_symm_apply]⟩
      have hiN : (i : ℕ) < n := i.isLt
      have hbwd : ∀ k, k < n →
          ∑ c ∈ Finset.range n, Go.uval st k c * v3 c = v2 k := by
        intro k hk
        exact Go.bwd_solves st n hn (fun c hc => hinv.diagNZ c hc) v2 k hk
      calc ∑ c ∈ Finset.range n, A0 r c * v3 c
          = ∑ c ∈ Finset.range n, (∑ k ∈ Finset.range n,
              Go.lval st (i : ℕ) k * Go.uval st k c) * v3 c := by
            apply Finset.sum_congr rfl
            intro c hc
            rw [Finset.mem_range] at hc
            rw [← hpi, hinv.eqn (i : ℕ) c hiN hc]
        _ = ∑ c ∈ Finset.range n, ∑ k ∈ Finset.range n,
              Go.lval st (i : ℕ) k * Go.uval st k c * v3 c := by
            apply Finset.sum_congr rfl
            intro c _
            rw [Finset.sum_mul]
        _ = ∑ k ∈ Finset.range n, ∑ c ∈ Finset.range n,
              Go.lval st (i : ℕ) k * Go.uval st k c * v3 c := Finset.sum_comm
        _ = ∑ k ∈ Finset.range n, Go.lval st (i : ℕ) k
              * ∑ c ∈ Finset.range n, Go.uval st k c * v3 c := by
            apply Finset.sum_congr rfl
            intro k _
            rw [Finset.mul_sum]
            apply Finset.sum_congr rfl
            intro c _
            rw [mul_assoc]
        _ = ∑ k ∈ Finset.range n, Go.lval st (i : ℕ) k * v2 k := by
            apply Finset.sum_congr rfl
            intro k hk
            rw [Finset.mem_range] at hk
            rw [hbwd k hk]
        _ = v1 (i : ℕ) := Go.fwd_solves st n v1 (i : ℕ) hiN
        _ = b (st.perm (i : ℕ)) :=
            (Go.permuteLoop_gather st.perm b n hinv.permInj n le_rfl).2.1 (i : ℕ) hiN
        _ = b r := by rw [hpi]

/-- Witness for C1: the 1×1 system `5·x = 1` is solved exactly. -/
theorem C1_solve_system_witness :
    ∃ st x, Go.LUsolveSystem Go.testMat 1 (fun _ => (1 : ℚ)) = .ok (st, x)
      ∧ (∀ i, i < 1 → (Go.permuteLoop st.perm 1 (fun _ => (1 : ℚ), fun _ => (1 : ℚ))).1 i
          = (fun _ => (1 : ℚ)) (st.perm i))
      ∧ x = Go.backwardSubstitution st.mat 1
          (Go.forwardSubstitution st.mat 1
            (Go.permuteLoop st.perm 1 (fun _ => (1 : ℚ), fun _ => (1 : ℚ))).1)
      ∧ (∀ r, r < 1 → ∑ c ∈ Finset.range 1, Go.testMat r c * x c = 1) :=
  C1_solve_system Go.testMat 1 (fun _ => (1 : ℚ)) le_rfl (by
    rw [Matrix.det_fin_one]
    norm_num [Go.matOf, Go.testMat])
